import Mathlib

/-!
Verification of the shell-syntax core of the yash-rs repository.

The development has two parts, mirroring the two crates whose sources are
given:

* namespace `Yash` — the early `yash` crate (`src/src/syntax.rs`,
  `src/src/parser.rs`): the AST types with their `Display`, `Unquote` and
  `MaybeLiteral` logic, the `TryFrom<Word> for Assign` conversion, and the
  (stub) `redirection` / `simple_command` parser functions over a token
  stream.

* namespace `YashSyntax` — the modern `yash-syntax` crate
  (`src/yash-syntax/src/parser/list.rs`,
  `src/yash-syntax/src/parser/while_loop.rs`): `list`, `command_line`,
  `maybe_compound_list`, `newline_and_here_doc_contents`, `while_loop` and
  `until_loop` translated from the source, over a parser state holding the
  remaining characters, a here-document content store and the queue of
  pending (unread) here-documents.  The lexer and the parser functions whose
  files are not among the given sources (`and_or_list`, `pipeline`,
  `simple_command`, `redirection`, `do_clause`, `here_doc_contents`,
  `ensure_no_unread_here_doc`) are modelled from the specification, as
  marked in their doc comments.

All definitions are executable; machine integers do not occur in the
modelled fragment (`RawFd` is modelled as `Int`).
-/

set_option maxHeartbeats 1000000
set_option maxRecDepth 4000

namespace Yash

/-- Location of a syntax element in the early crate: a line (its value and
1-based number; the source kind is always `Unknown` in the modelled fragment)
and a 1-based column.  From `src/source.rs` as used by the tests in
`src/src/parser.rs`. -/
structure Location where
  lineValue : String
  lineNumber : Nat
  column : Nat
  deriving Repr, DecidableEq

/-- Element of a `Text` (`TextUnit` in `src/src/syntax.rs`). -/
inductive TextUnit where
  | literal (c : Char)
  | backslashed (c : Char)
  | commandSubst (content : String) (location : Location)
  deriving Repr, DecidableEq

/-- String that may contain some expansions (`Text` in `src/src/syntax.rs`,
a tuple struct around a vector of units). -/
structure Text where
  units : List TextUnit
  deriving Repr, DecidableEq

/-- Element of a `Word` (`WordUnit` in `src/src/syntax.rs`). -/
inductive WordUnit where
  | unquoted (t : TextUnit)
  | singleQuote (s : String)
  | doubleQuote (t : Text)
  | tilde (s : String)
  deriving Repr, DecidableEq

/-- Token that may involve expansions and quotes (`Word` in
`src/src/syntax.rs`). -/
structure Word where
  units : List WordUnit
  location : Location
  deriving Repr, DecidableEq

/-- `Unquote::write_unquoted` for a `TextUnit`: the written string and the
flag telling whether a quote was removed. -/
def unquoteTextUnit : TextUnit → String × Bool
  | .literal c => (String.mk [c], false)
  | .backslashed c => (String.mk [c], true)
  | .commandSubst content _ => ("$(" ++ content ++ ")", false)

/-- `Unquote::write_unquoted` for a list of units: concatenation of the
written strings, or-fold of the flags (the `impl<T: Unquote> Unquote for [T]`
`try_fold` in `src/src/syntax.rs`). -/
def unquoteTextUnits : List TextUnit → String × Bool
  | [] => ("", false)
  | u :: us =>
    let r := unquoteTextUnit u
    let rs := unquoteTextUnits us
    (r.1 ++ rs.1, r.2 || rs.2)

/-- `Unquote::unquote` for a `Text`. -/
def unquoteText (t : Text) : String × Bool :=
  unquoteTextUnits t.units

/-- `Unquote::write_unquoted` for a `WordUnit` (`src/src/syntax.rs` lines
219–234): single quotes report `true`; a double quote delegates to its inner
text, so its result is the inner text's flag. -/
def unquoteWordUnit : WordUnit → String × Bool
  | .unquoted inner => unquoteTextUnit inner
  | .singleQuote inner => (inner, true)
  | .doubleQuote inner => unquoteText inner
  | .tilde s => ("~" ++ s, false)

/-- `Unquote::write_unquoted` for a list of word units. -/
def unquoteWordUnits : List WordUnit → String × Bool
  | [] => ("", false)
  | u :: us =>
    let r := unquoteWordUnit u
    let rs := unquoteWordUnits us
    (r.1 ++ rs.1, r.2 || rs.2)

/-- `Unquote::unquote` for a `Word`: the unquoted string and whether any
quotes were contained. -/
def unquoteWord (w : Word) : String × Bool :=
  unquoteWordUnits w.units

/-- `MaybeLiteral::extend_if_literal` for word units, specialised to
character accumulation: `some` of the characters when every unit is
`Unquoted(Literal(_))`, `none` otherwise. -/
def unitsLiteralChars : List WordUnit → Option (List Char)
  | [] => some []
  | .unquoted (.literal c) :: us => (unitsLiteralChars us).map (fun cs => c :: cs)
  | _ :: _ => none

/-- `MaybeLiteral::to_string_if_literal` for a list of word units. -/
def toStringIfLiteralUnits (us : List WordUnit) : Option String :=
  (unitsLiteralChars us).map (fun cs => String.mk cs)

/-- `Word::to_string_if_literal`. -/
def wordToStringIfLiteral (w : Word) : Option String :=
  toStringIfLiteralUnits w.units

/-- Value of an assignment (`Value` in `src/src/syntax.rs`). -/
inductive Value where
  | scalar (w : Word)
  | array (ws : List Word)
  deriving Repr, DecidableEq

/-- Assignment word (`Assign` in `src/src/syntax.rs`). -/
structure Assign where
  name : String
  value : Value
  location : Location
  deriving Repr, DecidableEq

/-- `TryFrom<Word> for Assign` (`src/src/syntax.rs` lines 326–354): find the
first unit equal to `Unquoted(Literal('='))`; if it exists at a position
greater than zero and the units before it are all literal, the word converts
into an assignment whose value keeps the remaining units and the original
location; otherwise the word is returned intact in the error. -/
def tryFromWord (w : Word) : Except Word Assign :=
  match w.units.findIdx? (fun u => decide (u = .unquoted (.literal '='))) with
  | some eq =>
    if 0 < eq then
      match toStringIfLiteralUnits (w.units.take eq) with
      | some name =>
        .ok { name := name
              value := .scalar { units := w.units.drop (eq + 1), location := w.location }
              location := w.location }
      | none => .error w
    else .error w
  | none => .error w

/-- Operators of the early crate's lexer (`src/src/parser/lex.rs`, not among
the given sources; the variants are those user-visible in
`src/src/syntax.rs` and `src/src/parser.rs`). -/
inductive Operator where
  | less
  | lessGreater
  | greater
  | greaterGreater
  | greaterBar
  | lessAnd
  | greaterAnd
  | greaterGreaterBar
  | lessLessLess
  | lessLess
  | lessLessDash
  | semicolon
  | ampersand
  | bar
  | andAnd
  | barBar
  | newline
  | openParen
  | closeParen
  deriving Repr, DecidableEq

/-- Redirection operators except here-document (`RedirOp` in
`src/src/syntax.rs`). -/
inductive RedirOp where
  | fileIn
  | fileInOut
  | fileOut
  | fileAppend
  | fileClobber
  | fdIn
  | fdOut
  | pipe
  | string
  deriving Repr, DecidableEq

/-- `From<RedirOp> for Operator`. -/
def operatorOfRedirOp : RedirOp → Operator
  | .fileIn => .less
  | .fileInOut => .lessGreater
  | .fileOut => .greater
  | .fileAppend => .greaterGreater
  | .fileClobber => .greaterBar
  | .fdIn => .lessAnd
  | .fdOut => .greaterAnd
  | .pipe => .greaterGreaterBar
  | .string => .lessLessLess

/-- `TryFrom<Operator> for RedirOp`. -/
def redirOpOfOperator : Operator → Except Unit RedirOp
  | .less => .ok .fileIn
  | .lessGreater => .ok .fileInOut
  | .greater => .ok .fileOut
  | .greaterGreater => .ok .fileAppend
  | .greaterBar => .ok .fileClobber
  | .lessAnd => .ok .fdIn
  | .greaterAnd => .ok .fdOut
  | .greaterGreaterBar => .ok .pipe
  | .lessLessLess => .ok .string
  | _ => .error ()

/-- The placeholder for a here-document whose content has not been read
(`MissingHereDoc` in `src/src/parser/fill.rs`, a unit struct). -/
inductive MissingHereDoc where
  | mk
  deriving Repr, DecidableEq

/-- Here-document (`HereDoc` in `src/src/syntax.rs`). -/
structure HereDoc where
  delimiter : Word
  removeTabs : Bool
  content : Text
  deriving Repr, DecidableEq

/-- Part of a redirection defining the nature of the file descriptor
(`RedirBody<H>` in `src/src/syntax.rs`). -/
inductive RedirBody (H : Type) where
  | normal (operator : RedirOp) (operand : Word)
  | hereDoc (h : H)
  deriving Repr, DecidableEq

/-- Redirection (`Redir<H>` in `src/src/syntax.rs`; `RawFd` is `i32`,
modelled as `Int`). -/
structure Redir (H : Type) where
  fd : Option Int
  body : RedirBody H
  deriving Repr, DecidableEq

/-- `Redir::fd_or_default`. -/
def fdOrDefault {H : Type} (r : Redir H) : Int :=
  match r.fd with
  | some fd => fd
  | none =>
    match r.body with
    | .normal operator _ =>
      match operator with
      | .fileIn | .fileInOut | .fdIn | .string => 0
      | .fileOut | .fileAppend | .fileClobber | .fdOut | .pipe => 1
    | .hereDoc _ => 0

/-- Simple command (`SimpleCommand<H>` in `src/src/syntax.rs`). -/
structure SimpleCommand (H : Type) where
  assigns : List Assign
  words : List Word
  redirs : List (Redir H)
  deriving Repr, DecidableEq

/-- `&&` / `||` (`AndOr` in `src/src/syntax.rs`). -/
inductive AndOr where
  | andThen
  | orElse
  deriving Repr, DecidableEq

mutual

/-- Command containing other commands (`CompoundCommand<H>` in
`src/src/syntax.rs`: only grouping, subshell, while and until exist at this
stage). -/
inductive CompoundCommand (H : Type) where
  | grouping (l : CList H)
  | subshell (l : CList H)
  | whileLoop (condition : CList H) (body : CList H)
  | untilLoop (condition : CList H) (body : CList H)

/-- Compound command with redirections (`FullCompoundCommand<H>`). -/
inductive FullCompoundCommand (H : Type) where
  | mk (command : CompoundCommand H) (redirs : List (Redir H))

/-- Function definition command (`FunctionDefinition<H>`). -/
inductive FunctionDefinition (H : Type) where
  | mk (hasKeyword : Bool) (name : Word) (body : FullCompoundCommand H)

/-- Element of a pipe sequence (`Command<H>`). -/
inductive Command (H : Type) where
  | simple (c : SimpleCommand H)
  | compound (c : FullCompoundCommand H)
  | function (f : FunctionDefinition H)

/-- Commands separated by `|` (`Pipeline<H>`). -/
inductive Pipeline (H : Type) where
  | mk (commands : List (Command H)) (negation : Bool)

/-- Pipelines separated by `&&` and `||` (`AndOrList<H>`). -/
inductive AndOrList (H : Type) where
  | mk (first : Pipeline H) (rest : List (AndOr × Pipeline H))

/-- Element of a list (`Item<H>` in `src/src/syntax.rs`: the and-or list and
whether the item is terminated by `&`). -/
inductive Item (H : Type) where
  | mk (andOr : AndOrList H) (isAsync : Bool)

/-- Sequence of and-or lists separated by `;` or `&` (`List<H>` in
`src/src/syntax.rs`; named `CList` here because `List` is taken by Lean). -/
inductive CList (H : Type) where
  | mk (items : List (Item H))

end

/-- The item list of a `CList`. -/
def CList.items {H : Type} : CList H → List (Item H)
  | .mk items => items

/-- The and-or list of an `Item`. -/
def Item.andOr {H : Type} : Item H → AndOrList H
  | .mk andOr _ => andOr

/-- The `&`-termination flag of an `Item`. -/
def Item.isAsync {H : Type} : Item H → Bool
  | .mk _ isAsync => isAsync

/-- `Display` for `TextUnit`. -/
def dispTextUnit : TextUnit → String
  | .literal c => String.mk [c]
  | .backslashed c => "\\" ++ String.mk [c]
  | .commandSubst content _ => "$(" ++ content ++ ")"

/-- `Display` for `Text`. -/
def dispText (t : Text) : String :=
  String.join (t.units.map dispTextUnit)

/-- `Display` for `WordUnit`. -/
def dispWordUnit : WordUnit → String
  | .unquoted dq => dispTextUnit dq
  | .singleQuote s => "'" ++ s ++ "'"
  | .doubleQuote content => "\"" ++ dispText content ++ "\""
  | .tilde s => "~" ++ s

/-- `Display` for `Word`. -/
def dispWord (w : Word) : String :=
  String.join (w.units.map dispWordUnit)

/-- `Display` for `Value`. -/
def dispValue : Value → String
  | .scalar word => dispWord word
  | .array words => "(" ++ String.intercalate (" ") (words.map dispWord) ++ ")"

/-- `Display` for `Assign`. -/
def dispAssign (a : Assign) : String :=
  a.name ++ "=" ++ dispValue a.value

/-- `Display` for `Operator` (`src/src/parser/lex.rs`, not among the given
sources). Modelled from the spec: the operator spellings listed in the data
model and lexer sections. -/
def opText : Operator → String
  | .less => "<"
  | .lessGreater => "<>"
  | .greater => ">"
  | .greaterGreater => ">>"
  | .greaterBar => ">|"
  | .lessAnd => "<&"
  | .greaterAnd => ">&"
  | .greaterGreaterBar => ">>|"
  | .lessLessLess => "<<<"
  | .lessLess => "<<"
  | .lessLessDash => "<<-"
  | .semicolon => ";"
  | .ampersand => "&"
  | .bar => "|"
  | .andAnd => "&&"
  | .barBar => "||"
  | .newline => "\n"
  | .openParen => "("
  | .closeParen => ")"

/-- `Display` for `RedirOp` (via its `Operator`). -/
def dispRedirOp (op : RedirOp) : String :=
  opText (operatorOfRedirOp op)

/-- `Display` for `HereDoc`: the operator, a disambiguating space when the
delimiter starts with a literal `-`, and the delimiter. -/
def dispHereDoc (h : HereDoc) : String :=
  (if h.removeTabs then "<<-" else "<<")
    ++ (match h.delimiter.units.head? with
        | some (.unquoted (.literal '-')) => " "
        | _ => "")
    ++ dispWord h.delimiter

/-- `Display` for `RedirBody<H>`, parameterised by the display of `H`. -/
def dispRedirBody {H : Type} (dispH : H → String) : RedirBody H → String
  | .normal operator operand => dispRedirOp operator ++ dispWord operand
  | .hereDoc h => dispH h

/-- `Display` for `Redir<H>`. -/
def dispRedir {H : Type} (dispH : H → String) (r : Redir H) : String :=
  (match r.fd with
   | some fd => toString fd
   | none => "")
    ++ dispRedirBody dispH r.body

/-- `Display` for `SimpleCommand<H>`: assignments, words and redirections
joined by single spaces. -/
def dispSimpleCommand {H : Type} (dispH : H → String) (c : SimpleCommand H) : String :=
  String.intercalate (" ")
    (c.assigns.map dispAssign ++ c.words.map dispWord ++ c.redirs.map (dispRedir dispH))

/-- `Display` for `AndOr`. -/
def dispAndOr : AndOr → String
  | .andThen => "&&"
  | .orElse => "||"

mutual

/-- `Display` for `CompoundCommand<H>`. -/
def dispCompoundCommand {H : Type} (dispH : H → String) : CompoundCommand H → String
  | .grouping l => "\x7b " ++ dispCList dispH true l ++ " \x7d"
  | .subshell l => "(" ++ dispCList dispH false l ++ ")"
  | .whileLoop condition body =>
    "while " ++ dispCList dispH true condition ++ " do " ++ dispCList dispH true body ++ " done"
  | .untilLoop condition body =>
    "until " ++ dispCList dispH true condition ++ " do " ++ dispCList dispH true body ++ " done"

/-- `Display` for `FullCompoundCommand<H>`. -/
def dispFullCompoundCommand {H : Type} (dispH : H → String) : FullCompoundCommand H → String
  | .mk command redirs =>
    dispCompoundCommand dispH command
      ++ String.join (redirs.map (fun redir => " " ++ dispRedir dispH redir))

/-- `Display` for `FunctionDefinition<H>`. -/
def dispFunctionDefinition {H : Type} (dispH : H → String) : FunctionDefinition H → String
  | .mk hasKeyword name body =>
    (if hasKeyword then "function " else "")
      ++ dispWord name ++ "() " ++ dispFullCompoundCommand dispH body

/-- `Display` for `Command<H>`. -/
def dispCommand {H : Type} (dispH : H → String) : Command H → String
  | .simple c => dispSimpleCommand dispH c
  | .compound c => dispFullCompoundCommand dispH c
  | .function f => dispFunctionDefinition dispH f

/-- The displayed commands of a pipeline, in order. -/
def dispCommandList {H : Type} (dispH : H → String) : List (Command H) → List String
  | [] => []
  | c :: cs => dispCommand dispH c :: dispCommandList dispH cs

/-- `Display` for `Pipeline<H>`: optional `! `, then commands joined by
`" | "`. -/
def dispPipeline {H : Type} (dispH : H → String) : Pipeline H → String
  | .mk commands negation =>
    (if negation then "! " else "")
      ++ String.intercalate (" | ") (dispCommandList dispH commands)

/-- The ` && p` / ` || p` tail of a displayed and-or list. -/
def dispAndOrRest {H : Type} (dispH : H → String) : List (AndOr × Pipeline H) → String
  | [] => ""
  | (c, p) :: rest =>
    " " ++ dispAndOr c ++ " " ++ dispPipeline dispH p ++ dispAndOrRest dispH rest

/-- `Display` for `AndOrList<H>`. -/
def dispAndOrList {H : Type} (dispH : H → String) : AndOrList H → String
  | .mk first rest => dispPipeline dispH first ++ dispAndOrRest dispH rest

/-- `Display` for `Item<H>`: the and-or list, then `&` when async, `;` when
the alternate flag is set, nothing otherwise. -/
def dispItem {H : Type} (dispH : H → String) (alternate : Bool) : Item H → String
  | .mk andOr isAsync =>
    dispAndOrList dispH andOr ++ (if isAsync then "&" else if alternate then ";" else "")

/-- The displayed items of a list: every item but the last in alternate form
followed by a space, the last with the caller's alternate flag (the
`split_last` logic of `Display for List`). -/
def dispItemList {H : Type} (dispH : H → String) (alternate : Bool) : List (Item H) → String
  | [] => ""
  | [i] => dispItem dispH alternate i
  | i :: is => dispItem dispH true i ++ " " ++ dispItemList dispH alternate is

/-- `Display` for `List<H>`. -/
def dispCList {H : Type} (dispH : H → String) (alternate : Bool) : CList H → String
  | .mk items => dispItemList dispH alternate items

end

/-- The renderful prefix of a displayed list: every item before the last in
alternate form (that is, followed by its `;` or `&` terminator) and a
space. -/
def dispItemsBefore {H : Type} (dispH : H → String) : List (Item H) → String
  | [] => ""
  | i :: is => dispItem dispH true i ++ " " ++ dispItemsBefore dispH is

/-- Token identifier of the early crate's lexer (`src/src/parser/lex.rs`,
reconstructed from its uses in `src/src/parser.rs`: the `match` on a token id
there has exactly the arms `Token` and `Operator(_)`; an `IoNumber` variant
is still a TODO comment). -/
inductive TokenId where
  | token
  | operator (op : Operator)
  deriving Repr, DecidableEq

/-- Token of the early crate's lexer: an id and the word of its characters. -/
structure Token where
  id : TokenId
  word : Word
  deriving Repr, DecidableEq

/-- Cause of a parser error in the early crate (`ErrorCause` in
`src/src/parser/core.rs`; the variants exercised by `src/src/parser.rs`). -/
inductive ErrorCause where
  | unknown
  | endOfInput
  | missingHereDocDelimiter
  deriving Repr, DecidableEq

/-- Parser error of the early crate: a cause and a location. -/
structure Error where
  cause : ErrorCause
  location : Location
  deriving Repr, DecidableEq

/-- The early crate's parser state over an already-lexed token stream: the
remaining tokens and the location reported by the lexer at end of input. -/
structure PState where
  tokens : List Token
  eofLocation : Location
  deriving Repr, DecidableEq

/-- `Parser::take_token`: the next token, or an `EndOfInput` error at the
end-of-input location. -/
def takeToken (s : PState) : Except Error (Token × PState) :=
  match s.tokens with
  | [] => .error { cause := .endOfInput, location := s.eofLocation }
  | t :: ts => .ok (t, { s with tokens := ts })

/-- `Parser::peek_token`: like `takeToken` but without consuming. -/
def peekToken (s : PState) : Except Error Token :=
  match s.tokens with
  | [] => .error { cause := .endOfInput, location := s.eofLocation }
  | t :: _ => .ok t

/-- `Parser::redirection` (`src/src/parser.rs` lines 45–80).  Only the `<<`
and `<<-` operators are handled (the other redirection operators and the
leading `IO_NUMBER` are TODO comments in the source); the operand must be a
`Token`, an operator operand fails with `MissingHereDocDelimiter` at the
location of the `<<`/`<<-` operator itself, and a successful parse always
yields `fd = None` with a `MissingHereDoc` body. -/
def redirection (s : PState) : Except Error (Redir MissingHereDoc × PState) :=
  match peekToken s with
  | .error e => .error e
  | .ok tok =>
    match tok.id with
    | .operator op =>
      if op = .lessLess ∨ op = .lessLessDash then
        match takeToken s with
        | .error e => .error e
        | .ok (operator_, s1) =>
          match takeToken s1 with
          | .error e => .error e
          | .ok (operand, s2) =>
            match operand.id with
            | .token => .ok ({ fd := none, body := .hereDoc .mk }, s2)
            | .operator _ =>
              .error { cause := .missingHereDocDelimiter
                       location := operator_.word.location }
      else .error { cause := .unknown, location := tok.word.location }
    | .token => .error { cause := .unknown, location := tok.word.location }

/-- The loop of `Parser::simple_command` (`src/src/parser.rs` lines 83–101):
take tokens until an `EndOfInput` error, pushing every token's word.  The
fuel argument only bounds the loop; the wrapper passes enough for the whole
token stream. -/
def simpleCommandGo (fuel : Nat) (words : List Word) (s : PState) :
    Except Error (SimpleCommand MissingHereDoc × PState) :=
  match fuel with
  | 0 => .error { cause := .unknown, location := s.eofLocation }
  | n + 1 =>
    match takeToken s with
    | .error e =>
      if e.cause = .endOfInput then
        .ok ({ assigns := [], words := words, redirs := [] }, s)
      else .error e
    | .ok (t, s1) => simpleCommandGo n (words ++ [t.word]) s1

/-- `Parser::simple_command` (`src/src/parser.rs` lines 83–101).  The source
predates assignment support (`assigns` would be empty in the constructed
value; the `SimpleCommand` literal there omits the field that the syntax
module later gained), delimiter handling is a TODO comment, and `redirs` is
always empty. -/
def simpleCommand (s : PState) : Except Error (SimpleCommand MissingHereDoc × PState) :=
  simpleCommandGo (s.tokens.length + 1) [] s

/-- A token of the early crate's lexer made of the given characters, starting
at 0-based position `p` of the single line `line`. -/
def mkOldToken (line : String) (p : Nat) (id : TokenId) (chars : List Char) : Token :=
  { id := id
    word := { units := chars.map (fun c => .unquoted (.literal c))
              location := { lineValue := line, lineNumber := 1, column := p + 1 } } }

/-- Characters that end a word in the early crate's lexer subset. -/
def oldWordEnd (c : Char) : Bool :=
  c = ' ' || c = '<'

/-- Modelled from the spec: the early crate's lexer (`src/src/parser/lex.rs`
is not among the given sources) on a single line, restricted to the fragment
the given parser consumes: blanks separate tokens, `<<-` and `<<` are
maximal-munch operators, and any other run of characters is a word token.
Columns are 1-based, as in the tests of `src/src/parser.rs`. -/
def lexOldGo (line : String) : Nat → List Char → Nat → List Token
  | 0, _, _ => []
  | _ + 1, [], _ => []
  | n + 1, ' ' :: rest, p => lexOldGo line n rest (p + 1)
  | n + 1, '<' :: '<' :: '-' :: rest, p =>
    mkOldToken line p (.operator .lessLessDash) ['<', '<', '-'] :: lexOldGo line n rest (p + 3)
  | n + 1, '<' :: '<' :: rest, p =>
    mkOldToken line p (.operator .lessLess) ['<', '<'] :: lexOldGo line n rest (p + 2)
  | n + 1, c :: rest, p =>
    let w := c :: rest.takeWhile (fun d => !oldWordEnd d)
    mkOldToken line p .token w :: lexOldGo line n (rest.dropWhile (fun d => !oldWordEnd d)) (p + w.length)

/-- Lex a whole single-line input with the modelled early lexer. -/
def lexOld (line : String) : List Token :=
  lexOldGo line (line.length + 1) line.toList 0

/-- The parser state for a single-line input under the modelled early lexer:
the tokens of the line, with the end-of-input location one column past the
last character. -/
def mkOldState (line : String) : PState :=
  { tokens := lexOld line
    eofLocation := { lineValue := line, lineNumber := 1, column := line.length + 1 } }

end Yash

namespace YashSyntax

/-- Location in the modern `yash-syntax` crate: a byte range in the code
fragment (`location.range` in the sources; the fragment itself — value,
source kind, starting line — is the whole input here and is left implicit).
For the ASCII fragment modelled, byte offsets and character offsets agree. -/
structure Location where
  start : Nat
  stop : Nat
  deriving Repr, DecidableEq

/-- Reserved words relevant to the modelled fragment. -/
inductive Keyword where
  | kwWhile
  | kwUntil
  | kwDo
  | kwDone
  | kwThen
  | kwElse
  | kwElif
  | kwFi
  | kwEsac
  | kwIf
  | kwOpenBrace
  | kwCloseBrace
  deriving Repr, DecidableEq

/-- Operators of the modern lexer, restricted to those the modelled fragment
produces. -/
inductive Operator where
  | newline
  | semicolon
  | semicolonSemicolon
  | ampersand
  | andAnd
  | bar
  | barBar
  | less
  | greater
  | lessLess
  | lessLessDash
  | openParen
  | closeParen
  deriving Repr, DecidableEq

/-- Token identifier: a word token with its optional keyword tag, an
operator, or end of input. -/
inductive TokenId where
  | token (kw : Option Keyword)
  | operator (op : Operator)
  | endOfInput
  deriving Repr, DecidableEq

/-- Modelled from the spec: `TokenId::is_clause_delimiter` (the lexer module
is not among the given sources).  A clause delimiter is a token that may
legally end a compound-command body: `}`, `)`, `done`, `then`, `elif`,
`else`, `fi`, `esac`, `;;`, or end of input. -/
def TokenId.isClauseDelimiter : TokenId → Bool
  | .operator .closeParen => true
  | .operator .semicolonSemicolon => true
  | .token (some .kwCloseBrace) => true
  | .token (some .kwDone) => true
  | .token (some .kwThen) => true
  | .token (some .kwElif) => true
  | .token (some .kwElse) => true
  | .token (some .kwFi) => true
  | .token (some .kwEsac) => true
  | .endOfInput => true
  | _ => false

/-- Element of a `Text` in the modern crate (only literal characters arise
in the modelled fragment, but the type keeps the source's shape). -/
inductive TextUnit where
  | literal (c : Char)
  | backslashed (c : Char)
  deriving Repr, DecidableEq

/-- `Text` of the modern crate. -/
structure Text where
  units : List TextUnit
  deriving Repr, DecidableEq

/-- Element of a `Word` in the modern crate (the modelled lexer fragment
produces only unquoted literal units). -/
inductive WordUnit where
  | unquoted (t : TextUnit)
  | singleQuote (s : String)
  deriving Repr, DecidableEq

/-- `Word` of the modern crate. -/
structure Word where
  units : List WordUnit
  location : Location
  deriving Repr, DecidableEq

/-- Token of the modern lexer. -/
structure Token where
  id : TokenId
  word : Word
  deriving Repr, DecidableEq

/-- Syntax errors of the modern parser (`SyntaxError` in
`yash-syntax/src/parser/error.rs`; the variants used by the modelled
fragment). -/
inductive SyntaxError where
  | invalidCommandToken
  | missingHereDocDelimiter
  | missingHereDocContent
  | missingRedirOperand
  | emptyWhileCondition
  | emptyUntilCondition
  | unclosedWhileClause (openingLocation : Location)
  | unclosedUntilClause (openingLocation : Location)
  | unexpectedToken
  deriving Repr, DecidableEq

/-- Cause of a modern parser error (`ErrorCause::Syntax(_)` in the source;
the constructor is spelled `synErr` here).  `outOfFuel` and
`brokenInvariant` are artifacts of the embedding (the fuel that bounds
recursion and an unreachable store lookup); no theorem below concerns
them. -/
inductive ErrorCause where
  | synErr (e : SyntaxError)
  | outOfFuel
  | brokenInvariant
  deriving Repr, DecidableEq

/-- Error of the modern parser. -/
structure Error where
  cause : ErrorCause
  location : Location
  deriving Repr, DecidableEq

/-- One here-document registered by the parser: the delimiter word, the tab
removal flag (`<<-`), and the content once it has been read.  `content =
none` is the `MissingHereDoc` state of the claim: the redirection exists in
the AST but its content has not been read yet. -/
structure HDSlot where
  delimiter : Word
  removeTabs : Bool
  content : Option Text
  deriving Repr, DecidableEq

/-- The modern parser's state: the input characters, the reading position,
the store of all here-documents created so far (AST nodes refer to them by
index), and the FIFO queue of indices whose content is still unread. -/
structure PState where
  input : List Char
  pos : Nat
  store : List HDSlot
  pending : List Nat
  deriving Repr, DecidableEq

/-- Characters that end a word in the modelled modern lexer. -/
def wordEnd (c : Char) : Bool :=
  c = ' ' || c = '\t' || c = '\n' || c = ';' || c = '&' || c = '|'
    || c = '<' || c = '>' || c = '(' || c = ')'

/-- Keyword classification of a word's characters. -/
def keywordOf (cs : List Char) : Option Keyword :=
  if cs = ['w', 'h', 'i', 'l', 'e'] then some .kwWhile
  else if cs = ['u', 'n', 't', 'i', 'l'] then some .kwUntil
  else if cs = ['d', 'o'] then some .kwDo
  else if cs = ['d', 'o', 'n', 'e'] then some .kwDone
  else if cs = ['t', 'h', 'e', 'n'] then some .kwThen
  else if cs = ['e', 'l', 's', 'e'] then some .kwElse
  else if cs = ['e', 'l', 'i', 'f'] then some .kwElif
  else if cs = ['f', 'i'] then some .kwFi
  else if cs = ['e', 's', 'a', 'c'] then some .kwEsac
  else if cs = ['i', 'f'] then some .kwIf
  else if cs = ['{'] then some .kwOpenBrace
  else if cs = ['}'] then some .kwCloseBrace
  else none

/-- A token of the given characters spanning positions `p` to `p + len`. -/
def mkToken (id : TokenId) (cs : List Char) (p : Nat) : Token :=
  { id := id
    word := { units := cs.map (fun c => .unquoted (.literal c))
              location := { start := p, stop := p + cs.length } } }

/-- Modelled from the spec: the modern lexer (`yash-syntax/src/parser/lex`
is not among the given sources) restricted to the fragment the claims
exercise: blanks are skipped, a newline is an operator token, multi-character
operators are maximal-munched, and any other character run is a word token,
tagged with its keyword when the spelling matches one.  The first argument is
the input suffix starting at position `p`; the result is the token and the
position after it (end of input yields an `endOfInput` token at `p..p` and
does not advance). -/
def lexTok : List Char → Nat → Token × Nat
  | [], p => ({ id := .endOfInput, word := { units := [], location := { start := p, stop := p } } }, p)
  | ' ' :: rest, p => lexTok rest (p + 1)
  | '\t' :: rest, p => lexTok rest (p + 1)
  | '\n' :: _, p => (mkToken (.operator .newline) ['\n'] p, p + 1)
  | '&' :: '&' :: _, p => (mkToken (.operator .andAnd) ['&', '&'] p, p + 2)
  | '&' :: _, p => (mkToken (.operator .ampersand) ['&'] p, p + 1)
  | '|' :: '|' :: _, p => (mkToken (.operator .barBar) ['|', '|'] p, p + 2)
  | '|' :: _, p => (mkToken (.operator .bar) ['|'] p, p + 1)
  | ';' :: ';' :: _, p => (mkToken (.operator .semicolonSemicolon) [';', ';'] p, p + 2)
  | ';' :: _, p => (mkToken (.operator .semicolon) [';'] p, p + 1)
  | '<' :: '<' :: '-' :: _, p => (mkToken (.operator .lessLessDash) ['<', '<', '-'] p, p + 3)
  | '<' :: '<' :: _, p => (mkToken (.operator .lessLess) ['<', '<'] p, p + 2)
  | '<' :: _, p => (mkToken (.operator .less) ['<'] p, p + 1)
  | '>' :: _, p => (mkToken (.operator .greater) ['>'] p, p + 1)
  | '(' :: _, p => (mkToken (.operator .openParen) ['('] p, p + 1)
  | ')' :: _, p => (mkToken (.operator .closeParen) [')'] p, p + 1)
  | c :: rest, p =>
    let w := c :: rest.takeWhile (fun d => !wordEnd d)
    (mkToken (.token (keywordOf w)) w p, p + w.length)

/-- The token at the current position (the real parser caches a peeked
token; rereading from the fixed input is equivalent). -/
def peekToken (s : PState) : Token :=
  (lexTok (s.input.drop s.pos) s.pos).1

/-- `take_token_raw`: the token at the current position, advancing past it. -/
def takeTokenRaw (s : PState) : Token × PState :=
  let r := lexTok (s.input.drop s.pos) s.pos
  (r.1, { s with pos := r.2 })

/-- One raw input line starting at the head of the suffix: the characters up
to the next newline and the position after that newline (used by
here-document content reading, which bypasses tokenization). -/
def readLine : List Char → Nat → List Char × Nat
  | [], p => ([], p)
  | '\n' :: _, p => ([], p + 1)
  | c :: rest, p =>
    let r := readLine rest (p + 1)
    (c :: r.1, r.2)

/-- The literal characters of a delimiter word (the unquoted form; the
modelled lexer only produces unquoted literal units). -/
def delimChars (w : Word) : List Char :=
  w.units.filterMap (fun u =>
    match u with
    | .unquoted (.literal c) => some c
    | _ => none)

/-- Redirection operators of the modern crate, restricted to those the
modelled lexer fragment produces. -/
inductive RedirOp where
  | fileIn
  | fileOut
  deriving Repr, DecidableEq

/-- `RedirBody` of the modern crate.  A here-document body refers to its
`HDSlot` in the parser state by index; while that slot's `content` is
`none`, the node is in the `MissingHereDoc` state of the claim. -/
inductive RedirBody where
  | normal (operator : RedirOp) (operand : Word)
  | hereDoc (index : Nat)
  deriving Repr, DecidableEq

/-- `Redir` of the modern crate. -/
structure Redir where
  fd : Option Int
  body : RedirBody
  deriving Repr, DecidableEq

/-- `SimpleCommand` of the modern crate, restricted to words and
redirections (assignments are outside the modelled fragment). -/
structure SimpleCommand where
  words : List Word
  redirs : List Redir
  deriving Repr, DecidableEq

/-- `AndOr` of the modern crate. -/
inductive AndOr where
  | andThen
  | orElse
  deriving Repr, DecidableEq

mutual

/-- `CompoundCommand` of the modern crate, restricted to the while and until
loops of `yash-syntax/src/parser/while_loop.rs`. -/
inductive CompoundCommand where
  | whileLoop (condition : CList) (body : CList)
  | untilLoop (condition : CList) (body : CList)
  deriving Repr

/-- `FullCompoundCommand`: a compound command with its trailing
redirections. -/
inductive FullCompoundCommand where
  | mk (command : CompoundCommand) (redirs : List Redir)
  deriving Repr

/-- `Command` of the modern crate (function definitions are outside the
modelled fragment). -/
inductive Command where
  | simple (c : SimpleCommand)
  | compound (c : FullCompoundCommand)
  deriving Repr

/-- `Pipeline` of the modern crate. -/
inductive Pipeline where
  | mk (commands : List Command) (negation : Bool)
  deriving Repr

/-- `AndOrList` of the modern crate. -/
inductive AndOrList where
  | mk (first : Pipeline) (rest : List (AndOr × Pipeline))
  deriving Repr

/-- `Item` of the modern crate: the and-or list (shared through `Rc` in the
source, owned here) and the location of the terminating `&`, if any. -/
inductive Item where
  | mk (andOr : AndOrList) (asyncFlag : Option Location)
  deriving Repr

/-- `List` of the modern crate (named `CList` because `List` is taken by
Lean). -/
inductive CList where
  | mk (items : List Item)
  deriving Repr

end

/-- The item list of a modern `CList`. -/
def CList.items : CList → List Item
  | .mk items => items

/-- The async flag of a modern `Item`. -/
def Item.asyncFlag : Item → Option Location
  | .mk _ asyncFlag => asyncFlag

/-- Here-document store indices mentioned by a redirection. -/
def redirHD (r : Redir) : List Nat :=
  match r.body with
  | .normal _ _ => []
  | .hereDoc i => [i]

/-- Here-document store indices mentioned by a list of redirections. -/
def redirsHD (rs : List Redir) : List Nat :=
  (rs.map redirHD).flatten

/-- Here-document store indices mentioned by a simple command. -/
def simpleHD (c : SimpleCommand) : List Nat :=
  redirsHD c.redirs

mutual

/-- Here-document store indices mentioned by a compound command. -/
def ccHD : CompoundCommand → List Nat
  | .whileLoop condition body => clistHD condition ++ clistHD body
  | .untilLoop condition body => clistHD condition ++ clistHD body

/-- Here-document store indices mentioned by a full compound command. -/
def fccHD : FullCompoundCommand → List Nat
  | .mk command redirs => ccHD command ++ redirsHD redirs

/-- Here-document store indices mentioned by a command. -/
def cmdHD : Command → List Nat
  | .simple c => simpleHD c
  | .compound c => fccHD c

/-- Here-document store indices mentioned by a command list. -/
def cmdsHD : List Command → List Nat
  | [] => []
  | c :: cs => cmdHD c ++ cmdsHD cs

/-- Here-document store indices mentioned by a pipeline. -/
def pipeHD : Pipeline → List Nat
  | .mk commands _ => cmdsHD commands

/-- Here-document store indices mentioned by an and-or tail. -/
def aoRestHD : List (AndOr × Pipeline) → List Nat
  | [] => []
  | (_, p) :: rest => pipeHD p ++ aoRestHD rest

/-- Here-document store indices mentioned by an and-or list. -/
def aolHD : AndOrList → List Nat
  | .mk first rest => pipeHD first ++ aoRestHD rest

/-- Here-document store indices mentioned by an item. -/
def itemHD : Item → List Nat
  | .mk andOr _ => aolHD andOr

/-- Here-document store indices mentioned by an item list. -/
def itemsHD : List Item → List Nat
  | [] => []
  | i :: is => itemHD i ++ itemsHD is

/-- Here-document store indices mentioned by a list. -/
def clistHD : CList → List Nat
  | .mk items => itemsHD items

end

/-- Whether slot `i` of a here-document store holds read content. -/
def storeFilled (st : List HDSlot) (i : Nat) : Bool :=
  match st[i]? with
  | some slot => slot.content.isSome
  | none => false

/-- Whether store index `i` holds a here-document whose content has been
read. -/
def filledB (s : PState) (i : Nat) : Bool :=
  storeFilled s.store i

/-- Whether every here-document mentioned by a list has its content read in
the given state: the list contains no `MissingHereDoc`. -/
def allFilledB (s : PState) (l : CList) : Bool :=
  (clistHD l).all (filledB s)

/-- Result of a modern parser function: an error, or a value with the next
state. -/
abbrev PRes (α : Type) := Except Error (α × PState)

/-- The fuel-exhaustion artifact error. -/
def fuelErr {α : Type} (s : PState) : PRes α :=
  .error { cause := .outOfFuel, location := { start := s.pos, stop := s.pos } }

/-- Whether an operator begins a redirection in the modelled fragment. -/
def isRedirOp : Operator → Bool
  | .less | .greater | .lessLess | .lessLessDash => true
  | _ => false

/-- The redirection operator of a (normal) redirection operator token. -/
def redirOpOf : Operator → RedirOp
  | .greater => .fileOut
  | _ => .fileIn

/-- The and-or connector of a token, if any. -/
def andOrOfId : TokenId → Option AndOr
  | .operator .andAnd => some .andThen
  | .operator .barBar => some .orElse
  | _ => none

/-- Modelled from the spec: `ensure_no_unread_here_doc`
(`yash-syntax/src/parser/core.rs` is not among the given sources; the call
in `command_line` and the test
`parser_command_line_here_doc_without_newline` fix its behavior): if any
here-document is still unread, fail with `MissingHereDocContent` at the
delimiter of the first one. -/
def ensureNoUnreadHereDoc (s : PState) : Except Error Unit :=
  match s.pending with
  | [] => .ok ()
  | i :: _ =>
    match s.store[i]? with
    | some slot =>
      .error { cause := .synErr .missingHereDocContent, location := slot.delimiter.location }
    | none => .error { cause := .brokenInvariant, location := { start := s.pos, stop := s.pos } }

/-- Modelled from the spec: `redirection` of the modern parser
(`yash-syntax/src/parser/redir.rs` is not among the given sources).  After a
`<<` or `<<-` operator the next token must be a word; its word becomes the
delimiter of a new here-document, which is appended to the store and to the
pending queue.  An operator operand fails with `MissingHereDocDelimiter` at
the `<<`/`<<-` operator.  A normal redirection takes a word operand. -/
def redirection (s : PState) : PRes Redir :=
  let tok := peekToken s
  match tok.id with
  | .operator op =>
    if op = .lessLess ∨ op = .lessLessDash then
      let s1 := (takeTokenRaw s).2
      let operand := peekToken s1
      match operand.id with
      | .token _ =>
        let s2 := (takeTokenRaw s1).2
        let idx := s2.store.length
        let slot : HDSlot :=
          { delimiter := operand.word, removeTabs := decide (op = .lessLessDash), content := none }
        .ok ({ fd := none, body := .hereDoc idx },
             { s2 with store := s2.store ++ [slot], pending := s2.pending ++ [idx] })
      | _ => .error { cause := .synErr .missingHereDocDelimiter, location := tok.word.location }
    else if isRedirOp op then
      let s1 := (takeTokenRaw s).2
      let operand := peekToken s1
      match operand.id with
      | .token _ =>
        .ok ({ fd := none, body := .normal (redirOpOf op) operand.word }, (takeTokenRaw s1).2)
      | _ => .error { cause := .synErr .missingRedirOperand, location := operand.word.location }
    else .error { cause := .synErr .unexpectedToken, location := tok.word.location }
  | _ => .error { cause := .synErr .unexpectedToken, location := tok.word.location }

mutual

/-- Modelled from the spec: the line-reading loop of the here-document
content reader (`yash-syntax/src/parser/lex` is not among the given
sources): read raw input lines until one that, after the optional leading
tab strip of `<<-`, equals the delimiter; the delimiter line is consumed but
not included; every content line keeps its newline; reaching end of input
first is an error at the delimiter's location. -/
def readHDGo : Nat → List Char → Bool → List TextUnit → Location → PState → PRes Text
  | 0, _, _, _, _, s => fuelErr s
  | n + 1, delim, rt, acc, dloc, s =>
    match s.input.drop s.pos with
    | [] => .error { cause := .synErr .missingHereDocContent, location := dloc }
    | c :: rest =>
      let r := readLine (c :: rest) s.pos
      let stripped := if rt then r.1.dropWhile (fun d => d = '\t') else r.1
      if stripped = delim then .ok ({ units := acc }, { s with pos := r.2 })
      else
        readHDGo n delim rt (acc ++ stripped.map .literal ++ [.literal '\n']) dloc
          { s with pos := r.2 }

/-- Modelled from the spec: `here_doc_contents`: read the content of every
pending here-document in FIFO order, filling its store slot. -/
def hereDocContents : Nat → PState → PRes Unit
  | 0, s => fuelErr s
  | n + 1, s =>
    match s.pending with
    | [] => .ok ((), s)
    | i :: rest =>
      match s.store[i]? with
      | none => .error { cause := .brokenInvariant, location := { start := s.pos, stop := s.pos } }
      | some slot =>
        match readHDGo n (delimChars slot.delimiter) slot.removeTabs [] slot.delimiter.location
            { s with pending := rest } with
        | .error e => .error e
        | .ok (text, s1) =>
          hereDocContents n
            { s1 with store := s1.store.set i { slot with content := some text } }

/-- `newline_and_here_doc_contents` (`yash-syntax/src/parser/list.rs` lines
88–96): if the current token is a newline, consume it and read all pending
here-document contents, returning `true`; otherwise return `false` without
side effect. -/
def newlineAndHereDocContents : Nat → PState → PRes Bool
  | 0, s => fuelErr s
  | n + 1, s =>
    if (peekToken s).id = .operator .newline then
      match hereDocContents n (takeTokenRaw s).2 with
      | .error e => .error e
      | .ok (_, s1) => .ok (true, s1)
    else .ok (false, s)

/-- Modelled from the spec: the newline skipping after `|`, `&&` and `||`
("newlines after the connector are consumed"), which also triggers
here-document content reading. -/
def skipNewlines : Nat → PState → PRes Unit
  | 0, s => fuelErr s
  | n + 1, s =>
    match newlineAndHereDocContents n s with
    | .error e => .error e
    | .ok (false, s1) => .ok ((), s1)
    | .ok (true, s1) => skipNewlines n s1

/-- Modelled from the spec: the word/redirection collection loop of the
modern `simple_command` (`yash-syntax/src/parser/simple_command.rs` is not
among the given sources), restricted to words and redirections: any word
token is collected (reserved words are only special at the start of a
command, which the caller has already dispatched on), a redirection operator
parses a redirection, and any other operator or end of input stops the
loop. -/
def scLoop : Nat → List Word → List Redir → PState → PRes SimpleCommand
  | 0, _, _, s => fuelErr s
  | n + 1, ws, rs, s =>
    let tok := peekToken s
    match tok.id with
    | .token _ => scLoop n (ws ++ [tok.word]) rs (takeTokenRaw s).2
    | .operator op =>
      if isRedirOp op then
        match redirection s with
        | .error e => .error e
        | .ok (r, s1) => scLoop n ws (rs ++ [r]) s1
      else .ok ({ words := ws, redirs := rs }, s)
    | .endOfInput => .ok ({ words := ws, redirs := rs }, s)

/-- Modelled from the spec: the trailing-redirection loop of a compound
command ("redirections trailing a compound command are collected into
`FullCompoundCommand`"). -/
def redirsLoop : Nat → List Redir → PState → PRes (List Redir)
  | 0, _, s => fuelErr s
  | n + 1, rs, s =>
    match (peekToken s).id with
    | .operator op =>
      if isRedirOp op then
        match redirection s with
        | .error e => .error e
        | .ok (r, s1) => redirsLoop n (rs ++ [r]) s1
      else .ok (rs, s)
    | _ => .ok (rs, s)

/-- Modelled from the spec: `command` of the modern parser
(`yash-syntax/src/parser/command.rs` is not among the given sources),
restricted to the modelled fragment: a plain word or redirection operator
starts a simple command, `while`/`until` start the loops of
`yash-syntax/src/parser/while_loop.rs` followed by trailing redirections,
and any other token means no command starts here (`None`). -/
def command : Nat → PState → PRes (Option Command)
  | 0, s => fuelErr s
  | n + 1, s =>
    let tok := peekToken s
    match tok.id with
    | .token none =>
      match scLoop n [] [] s with
      | .error e => .error e
      | .ok (c, s1) => .ok (some (.simple c), s1)
    | .token (some .kwWhile) =>
      match whileLoop n s with
      | .error e => .error e
      | .ok (cc, s1) =>
        match redirsLoop n [] s1 with
        | .error e => .error e
        | .ok (rs, s2) => .ok (some (.compound (.mk cc rs)), s2)
    | .token (some .kwUntil) =>
      match untilLoop n s with
      | .error e => .error e
      | .ok (cc, s1) =>
        match redirsLoop n [] s1 with
        | .error e => .error e
        | .ok (rs, s2) => .ok (some (.compound (.mk cc rs)), s2)
    | .token (some _) => .ok (none, s)
    | .operator op =>
      if isRedirOp op then
        match scLoop n [] [] s with
        | .error e => .error e
        | .ok (c, s1) => .ok (some (.simple c), s1)
      else .ok (none, s)
    | .endOfInput => .ok (none, s)

/-- Modelled from the spec: the `| command` tail of a pipeline; newlines
after `|` are consumed (reading pending here-document contents), and a
missing command after `|` is an error. -/
def pipelineRest : Nat → List Command → PState → PRes (List Command)
  | 0, _, s => fuelErr s
  | n + 1, cs, s =>
    if (peekToken s).id = .operator .bar then
      match skipNewlines n (takeTokenRaw s).2 with
      | .error e => .error e
      | .ok (_, s2) =>
        match command n s2 with
        | .error e => .error e
        | .ok (none, s3) =>
          .error { cause := .synErr .invalidCommandToken, location := (peekToken s3).word.location }
        | .ok (some c, s3) => pipelineRest n (cs ++ [c]) s3
    else .ok (cs, s)

/-- Modelled from the spec: `pipeline` of the modern parser (one or more
commands separated by `|`; the leading `!` negation is outside the modelled
fragment, so `negation` is always `false` here).  `None` when no command
starts at the current token. -/
def pipelineFn : Nat → PState → PRes (Option Pipeline)
  | 0, s => fuelErr s
  | n + 1, s =>
    match command n s with
    | .error e => .error e
    | .ok (none, s1) => .ok (none, s1)
    | .ok (some c, s1) =>
      match pipelineRest n [c] s1 with
      | .error e => .error e
      | .ok (cs, s2) => .ok (some (.mk cs false), s2)

/-- Modelled from the spec: the `&& pipeline` / `|| pipeline` tail of an
and-or list; newlines after the connector are consumed. -/
def aolRest : Nat → Pipeline → List (AndOr × Pipeline) → PState → PRes AndOrList
  | 0, _, _, s => fuelErr s
  | n + 1, first, acc, s =>
    match andOrOfId (peekToken s).id with
    | none => .ok (.mk first acc, s)
    | some c =>
      match skipNewlines n (takeTokenRaw s).2 with
      | .error e => .error e
      | .ok (_, s2) =>
        match pipelineFn n s2 with
        | .error e => .error e
        | .ok (none, s3) =>
          .error { cause := .synErr .invalidCommandToken, location := (peekToken s3).word.location }
        | .ok (some p, s3) => aolRest n first (acc ++ [(c, p)]) s3

/-- Modelled from the spec: `and_or_list` of the modern parser
(`yash-syntax/src/parser/and_or.rs` is not among the given sources):
pipelines separated by `&&`/`||`; `None` when no pipeline starts at the
current token. -/
def andOrList : Nat → PState → PRes (Option AndOrList)
  | 0, s => fuelErr s
  | n + 1, s =>
    match pipelineFn n s with
    | .error e => .error e
    | .ok (none, s1) => .ok (none, s1)
    | .ok (some p, s1) =>
      match aolRest n p [] s1 with
      | .error e => .error e
      | .ok (a, s2) => .ok (some a, s2)

/-- The `while let` loop of `list` (`yash-syntax/src/parser/list.rs` lines
56–77): record the current and-or list as an item whose async flag is the
location of a following `&`; continue after `;` or `&` while another and-or
list follows. -/
def listLoop : Nat → AndOrList → List Item → PState → PRes CList
  | 0, _, _, s => fuelErr s
  | n + 1, andOr, items, s =>
    let tok := peekToken s
    let next : Option Location × Bool :=
      match tok.id with
      | .operator .semicolon => (none, true)
      | .operator .ampersand => (some tok.word.location, true)
      | _ => (none, false)
    let items1 := items ++ [Item.mk andOr next.1]
    if next.2 then
      match andOrList n (takeTokenRaw s).2 with
      | .error e => .error e
      | .ok (none, s2) => .ok (.mk items1, s2)
      | .ok (some a2, s2) => listLoop n a2 items1 s2
    else .ok (.mk items1, s)

/-- `list` (`yash-syntax/src/parser/list.rs` lines 48–80): a sequence of
and-or lists separated by `;` or `&`; an empty list when no and-or list
starts at the current position.  (The alias-substitution `Rec` wrapper of
the source is collapsed: the model has no alias table, so `and_or_list`
never reports a substitution and the `loop` retry in the source runs its
body exactly once.) -/
def listFn : Nat → PState → PRes CList
  | 0, s => fuelErr s
  | n + 1, s =>
    match andOrList n s with
    | .error e => .error e
    | .ok (none, s1) => .ok (.mk [], s1)
    | .ok (some a, s1) => listLoop n a [] s1

/-- `command_line` (`yash-syntax/src/parser/list.rs` lines 106–129): parse a
list; then either a newline (reading pending here-document contents) or end
of input must follow — any other token is an `InvalidCommandToken` error; an
empty list at end of input without a newline yields `None`; in every `Some`
case `ensure_no_unread_here_doc` runs before the list is returned. -/
def commandLine : Nat → PState → PRes (Option CList)
  | 0, s => fuelErr s
  | n + 1, s =>
    match listFn n s with
    | .error e => .error e
    | .ok (l, s1) =>
      match newlineAndHereDocContents n s1 with
      | .error e => .error e
      | .ok (true, s2) =>
        match ensureNoUnreadHereDoc s2 with
        | .error e => .error e
        | .ok _ => .ok (some l, s2)
      | .ok (false, s2) =>
        let next := peekToken s2
        if next.id = .endOfInput then
          if l.items.isEmpty then .ok (none, s2)
          else
            match ensureNoUnreadHereDoc s2 with
            | .error e => .error e
            | .ok _ => .ok (some l, s2)
        else .error { cause := .synErr .invalidCommandToken, location := next.word.location }

/-- The list-and-newline loop of `maybe_compound_list`
(`yash-syntax/src/parser/list.rs` lines 145–156): accumulate the items of
successive lists while newlines (with here-document contents) separate
them. -/
def mclLoop : Nat → List Item → PState → PRes (List Item)
  | 0, _, s => fuelErr s
  | n + 1, items, s =>
    match listFn n s with
    | .error e => .error e
    | .ok (l, s1) =>
      match newlineAndHereDocContents n s1 with
      | .error e => .error e
      | .ok (false, s2) => .ok (items ++ l.items, s2)
      | .ok (true, s2) => mclLoop n (items ++ l.items) s2

/-- `maybe_compound_list` (`yash-syntax/src/parser/list.rs` lines 142–166):
parse newline-separated lists; the token that stops the loop must be a
clause delimiter, in which case the items parsed so far are returned,
otherwise the result is an `InvalidCommandToken` error at that token. -/
def maybeCompoundList : Nat → PState → PRes CList
  | 0, s => fuelErr s
  | n + 1, s =>
    match mclLoop n [] s with
    | .error e => .error e
    | .ok (items, s1) =>
      let next := peekToken s1
      if next.id.isClauseDelimiter then .ok (.mk items, s1)
      else .error { cause := .synErr .invalidCommandToken, location := next.word.location }

/-- Modelled from the spec: `do_clause` (`yash-syntax/src/parser/while_loop`
relies on it but its file is not among the given sources): `None` when the
current token is not the `do` reserved word; otherwise the body is a
compound list that must be non-empty and closed by `done`. -/
def doClause : Nat → PState → PRes (Option CList)
  | 0, s => fuelErr s
  | n + 1, s =>
    if (peekToken s).id = .token (some .kwDo) then
      match maybeCompoundList n (takeTokenRaw s).2 with
      | .error e => .error e
      | .ok (body, s2) =>
        let next := peekToken s2
        if next.id = .token (some .kwDone) then
          if body.items.isEmpty then
            .error { cause := .synErr .unexpectedToken, location := next.word.location }
          else .ok (some body, (takeTokenRaw s2).2)
        else .error { cause := .synErr .unexpectedToken, location := next.word.location }
    else .ok (none, s)

/-- `while_loop` (`yash-syntax/src/parser/while_loop.rs` lines 35–59): after
the `while` word, a non-empty compound-list condition (an empty one is
`EmptyWhileCondition` at the next token) and a `do` clause (a missing one is
`UnclosedWhileClause` carrying the opening `while` location, reported at the
next token). -/
def whileLoop : Nat → PState → PRes CompoundCommand
  | 0, s => fuelErr s
  | n + 1, s =>
    let open_ := takeTokenRaw s
    if open_.1.id = .token (some .kwWhile) then
      match maybeCompoundList n open_.2 with
      | .error e => .error e
      | .ok (condition, s2) =>
        if condition.items.isEmpty then
          .error { cause := .synErr .emptyWhileCondition
                   location := (takeTokenRaw s2).1.word.location }
        else
          match doClause n s2 with
          | .error e => .error e
          | .ok (some body, s3) => .ok (.whileLoop condition body, s3)
          | .ok (none, s3) =>
            .error { cause := .synErr (.unclosedWhileClause open_.1.word.location)
                     location := (takeTokenRaw s3).1.word.location }
    else .error { cause := .brokenInvariant, location := open_.1.word.location }

/-- `until_loop` (`yash-syntax/src/parser/while_loop.rs` lines 68–92): the
same structure as `while_loop` with the `until` word,
`EmptyUntilCondition` and `UnclosedUntilClause`. -/
def untilLoop : Nat → PState → PRes CompoundCommand
  | 0, s => fuelErr s
  | n + 1, s =>
    let open_ := takeTokenRaw s
    if open_.1.id = .token (some .kwUntil) then
      match maybeCompoundList n open_.2 with
      | .error e => .error e
      | .ok (condition, s2) =>
        if condition.items.isEmpty then
          .error { cause := .synErr .emptyUntilCondition
                   location := (takeTokenRaw s2).1.word.location }
        else
          match doClause n s2 with
          | .error e => .error e
          | .ok (some body, s3) => .ok (.untilLoop condition body, s3)
          | .ok (none, s3) =>
            .error { cause := .synErr (.unclosedUntilClause open_.1.word.location)
                     location := (takeTokenRaw s3).1.word.location }
    else .error { cause := .brokenInvariant, location := open_.1.word.location }

end

/-- The initial parser state for a string input. -/
def mkState (input : String) : PState :=
  { input := input.toList, pos := 0, store := [], pending := [] }

/-- Here-document store indices mentioned by an optional command. -/
def ocHD : Option Command → List Nat
  | none => []
  | some c => cmdHD c

/-- Here-document store indices mentioned by an optional pipeline. -/
def opipeHD : Option Pipeline → List Nat
  | none => []
  | some p => pipeHD p

/-- Here-document store indices mentioned by an optional and-or list. -/
def oaolHD : Option AndOrList → List Nat
  | none => []
  | some a => aolHD a

/-- Here-document store indices mentioned by an optional list. -/
def oclHD : Option CList → List Nat
  | none => []
  | some l => clistHD l

/-- How a parser step may change the here-document bookkeeping: a read
here-document stays read, and a pending one either stays pending or gets
read.  (The store may also grow with new pending here-documents.) -/
def Evol (s s' : PState) : Prop :=
  (∀ i, filledB s i = true → filledB s' i = true) ∧
  (∀ i, i ∈ s.pending → i ∈ s'.pending ∨ filledB s' i = true)

/-- Every listed here-document index is accounted for in the state: its
content is read, or it is still queued as pending. -/
def Covered (s : PState) (ids : List Nat) : Prop :=
  ∀ i ∈ ids, i ∈ s.pending ∨ filledB s i = true

/-- The induction package for the fueled parser functions: at fuel `n`,
every function that returns successfully evolves the state per `Evol`, and
every here-document index mentioned in its output is covered (pending or
read) in the output state, given that the indices in its accumulator
arguments were covered in the input state.  `command_line` additionally
turns coverage into the final no-`MissingHereDoc` guarantee because it runs
`ensure_no_unread_here_doc`. -/
structure Specs (n : Nat) : Prop where
  readHD : ∀ delim rt acc dloc s t s',
    readHDGo n delim rt acc dloc s = .ok (t, s') →
    s'.store = s.store ∧ s'.pending = s.pending
  hdc : ∀ s u s', hereDocContents n s = .ok (u, s') → Evol s s'
  nlhdc : ∀ s b s', newlineAndHereDocContents n s = .ok (b, s') → Evol s s'
  skipNl : ∀ s u s', skipNewlines n s = .ok (u, s') → Evol s s'
  scLp : ∀ ws rs s c s', scLoop n ws rs s = .ok (c, s') →
    Evol s s' ∧ (Covered s (redirsHD rs) → Covered s' (simpleHD c))
  redLp : ∀ rs s rs2 s', redirsLoop n rs s = .ok (rs2, s') →
    Evol s s' ∧ (Covered s (redirsHD rs) → Covered s' (redirsHD rs2))
  cmd : ∀ s oc s', command n s = .ok (oc, s') → Evol s s' ∧ Covered s' (ocHD oc)
  pipeRest : ∀ cs s cs2 s', pipelineRest n cs s = .ok (cs2, s') →
    Evol s s' ∧ (Covered s (cmdsHD cs) → Covered s' (cmdsHD cs2))
  pipe : ∀ s op s', pipelineFn n s = .ok (op, s') → Evol s s' ∧ Covered s' (opipeHD op)
  aolR : ∀ p acc s a s', aolRest n p acc s = .ok (a, s') →
    Evol s s' ∧ (Covered s (pipeHD p ++ aoRestHD acc) → Covered s' (aolHD a))
  aol : ∀ s oa s', andOrList n s = .ok (oa, s') → Evol s s' ∧ Covered s' (oaolHD oa)
  lstLp : ∀ a items s l s', listLoop n a items s = .ok (l, s') →
    Evol s s' ∧ (Covered s (aolHD a ++ itemsHD items) → Covered s' (clistHD l))
  lst : ∀ s l s', listFn n s = .ok (l, s') → Evol s s' ∧ Covered s' (clistHD l)
  cmdLn : ∀ s r s', commandLine n s = .ok (r, s') →
    Evol s s' ∧ ∀ l, r = some l → allFilledB s' l = true
  mclLp : ∀ items s items2 s', mclLoop n items s = .ok (items2, s') →
    Evol s s' ∧ (Covered s (itemsHD items) → Covered s' (itemsHD items2))
  mcl : ∀ s l s', maybeCompoundList n s = .ok (l, s') → Evol s s' ∧ Covered s' (clistHD l)
  doCl : ∀ s ob s', doClause n s = .ok (ob, s') → Evol s s' ∧ Covered s' (oclHD ob)
  whl : ∀ s cc s', whileLoop n s = .ok (cc, s') → Evol s s' ∧ Covered s' (ccHD cc)
  unt : ∀ s cc s', untilLoop n s = .ok (cc, s') → Evol s s' ∧ Covered s' (ccHD cc)

end YashSyntax

namespace Yash

/-- A dummy location for hand-built test words. -/
def dummyLoc : Location :=
  { lineValue := "", lineNumber := 1, column := 1 }

/-- A word of literal characters at a dummy location. -/
def litWord (s : String) : Word :=
  { units := s.toList.map (fun c => .unquoted (.literal c)), location := dummyLoc }

/-- Validity of a POSIX name (identifier), following the specification's
words: a name starts with a letter or underscore and continues with letters,
digits or underscores.  (Spec-side definition, used to compare the
specification's claimed assignment condition with the source's.) -/
def isPosixName (s : String) : Bool :=
  match s.toList with
  | [] => false
  | c :: cs => (c.isAlpha || c = '_') && cs.all (fun d => d.isAlphanum || d = '_')

/-- The condition under which the source's `TryFrom<Word> for Assign`
succeeds, stated independently: the first unquoted literal `=` sits at a
unit position greater than zero and every unit before it is literal. -/
def assignPrefixOk (w : Word) : Bool :=
  match w.units.findIdx? (fun u => decide (u = .unquoted (.literal '='))) with
  | some eq => decide (0 < eq) && (toStringIfLiteralUnits (w.units.take eq)).isSome
  | none => false

/-- Token stream for the `simple_command` counterexample: a word, a `;`
operator token, and another word, as the lexer would produce for
`echo ; ls`. -/
def c3tokens : List Token :=
  [ mkOldToken ("echo ; ls") 0 .token ['e', 'c', 'h', 'o']
  , mkOldToken ("echo ; ls") 5 (.operator .semicolon) [';']
  , mkOldToken ("echo ; ls") 7 .token ['l', 's'] ]

/-- Parser state for the `simple_command` counterexample. -/
def c3state : PState :=
  { tokens := c3tokens
    eofLocation := { lineValue := "echo ; ls", lineNumber := 1, column := 10 } }

/-- The result pair of `redirection` on `<<end`, for the witness (the
fallback branch is never taken). -/
def c2pair : Redir MissingHereDoc × PState :=
  match redirection (mkOldState ("<<end")) with
  | .ok p => p
  | .error _ => ({ fd := none, body := .hereDoc .mk }, mkOldState (""))

/-- The non-identifier assignment word `a-b=c` of the `Assign` conversion
counterexample. -/
def c4word : Word :=
  litWord ("a-b=c")

/-- A word consisting of one double-quoted all-literal unit, `"e"`. -/
def c5word : Word :=
  { units := [.doubleQuote { units := [.literal 'e'] }], location := dummyLoc }

/-- A word starting with `=` (empty name), on which the `Assign` conversion
fails. -/
def c10word : Word :=
  litWord ("=x")

end Yash

namespace YashSyntax

/-- The number of items of a successful parse result. -/
def okItemsLen (r : PRes CList) : Option Nat :=
  match r with
  | .ok (l, _) => some l.items.length
  | .error _ => none

/-- The list and final state of `command_line` on the here-document input
`<<E\nx\nE\n`, for the witness (the fallback branch is never taken). -/
def c1pair : CList × PState :=
  match commandLine 40 (mkState ("<<E\nx\nE\n")) with
  | .ok (some l, s') => (l, s')
  | _ => (.mk [], mkState (""))

end YashSyntax

theorem Yash.simpleCommandGo_consumes :
    ∀ (ts : List Yash.Token) (n : Nat) (ws : List Yash.Word) (eof : Yash.Location),
      ts.length < n →
      Yash.simpleCommandGo n ws { tokens := ts, eofLocation := eof } =
        .ok ({ assigns := [], words := ws ++ ts.map Yash.Token.word, redirs := [] },
             { tokens := [], eofLocation := eof }) := by
  intro ts
  induction ts with
  | nil =>
    intro n ws eof h
    match n, h with
    | n + 1, _ => simp [Yash.simpleCommandGo, Yash.takeToken]
  | cons t ts ih =>
    intro n ws eof h
    match n, h with
    | n + 1, h =>
      have h' : ts.length < n := by simpa using Nat.lt_of_succ_lt_succ h
      simpa [Yash.simpleCommandGo, Yash.takeToken] using ih n (ws ++ [t.word]) eof h'

/-- C2 (counterexample): the early `redirection` does not accept a leading
I/O-number token.  The token kind does not even exist in this version of the
lexer; a digit word token `3` before `<<` makes `redirection` fail with an
`Unknown` error at that token instead of recording `fd = 3`. -/
theorem redirection_io_number_counterexample :
    Yash.redirection (Yash.mkOldState ("3<<end")) =
      .error { cause := .unknown
               location := { lineValue := "3<<end", lineNumber := 1, column := 1 } } := by
  rfl

/-- C2 (amended): whenever the early `redirection` succeeds, the resulting
file descriptor is `None` and the body is the `MissingHereDoc` placeholder;
no I/O number is ever recorded (`IO_NUMBER` support is a TODO comment in the
source). -/
theorem redirection_fd_always_none
    (s : Yash.PState) (r : Yash.Redir Yash.MissingHereDoc) (s' : Yash.PState)
    (h : Yash.redirection s = .ok (r, s')) :
    r.fd = none ∧ r.body = .hereDoc .mk := by
  unfold Yash.redirection at h
  repeat' split at h
  all_goals cases h
  all_goals exact ⟨rfl, rfl⟩

/-- C2 (witness): `redirection` applied to the tokens of `<<end` succeeds,
and the theorem yields `fd = None` with a placeholder body there. -/
theorem redirection_fd_always_none_witness :
    Yash.c2pair.1.fd = none ∧ Yash.c2pair.1.body = .hereDoc .mk :=
  redirection_fd_always_none (Yash.mkOldState ("<<end")) Yash.c2pair.1 Yash.c2pair.2 rfl

/-- C3 (counterexample): the early `simple_command` does not stop at the `;`
delimiter token: on the stream `echo ; ls` it returns three words, the `;`
operator token and the following `ls` included. -/
theorem simple_command_delimiter_counterexample :
    Yash.simpleCommand Yash.c3state =
      .ok ({ assigns := []
             words := [ (Yash.mkOldToken ("echo ; ls") 0 .token ['e', 'c', 'h', 'o']).word
                      , (Yash.mkOldToken ("echo ; ls") 5 (.operator .semicolon) [';']).word
                      , (Yash.mkOldToken ("echo ; ls") 7 .token ['l', 's']).word ]
             redirs := [] },
           { tokens := [], eofLocation := Yash.c3state.eofLocation }) := by
  rfl

/-- C3 (amended): the early `simple_command` consumes every remaining token
until end of input (delimiter handling is a TODO comment in the source),
collecting each token's word — operator tokens included — with no
assignments and no redirections. -/
theorem simple_command_consumes_all_tokens (s : Yash.PState) :
    Yash.simpleCommand s =
      .ok ({ assigns := [], words := s.tokens.map Yash.Token.word, redirs := [] },
           { tokens := [], eofLocation := s.eofLocation }) := by
  have h := Yash.simpleCommandGo_consumes s.tokens (s.tokens.length + 1) [] s.eofLocation
    (Nat.lt_succ_self _)
  simpa [Yash.simpleCommand] using h

/-- C4 (counterexample): `TryFrom<Word> for Assign` converts the word
`a-b=c` into an assignment with name `a-b`, although `a-b` is not a valid
POSIX name — the conversion does not check that the prefix is an
identifier, only that it is literal and non-empty. -/
theorem assign_try_from_non_identifier_counterexample :
    Yash.tryFromWord Yash.c4word =
      .ok { name := "a-b"
            value := .scalar { units := [.unquoted (.literal 'c')], location := Yash.dummyLoc }
            location := Yash.dummyLoc }
    ∧ Yash.isPosixName ("a-b") = false :=
  ⟨rfl, rfl⟩

/-- C4 (amended): the conversion of a word into an assignment succeeds
exactly when the first unquoted literal `=` sits at a unit position greater
than zero and every unit before it is an unquoted literal character; the
prefix is not validated as an identifier. -/
theorem assign_try_from_success_condition (w : Yash.Word) :
    (Yash.tryFromWord w).isOk = Yash.assignPrefixOk w := by
  unfold Yash.tryFromWord Yash.assignPrefixOk
  cases h : w.units.findIdx? (fun u => decide (u = .unquoted (.literal '='))) with
  | none => rfl
  | some eq =>
    by_cases he : 0 < eq
    · cases ht : Yash.toStringIfLiteralUnits (w.units.take eq) with
      | none => simp [he, ht, Except.isOk, Except.toBool]
      | some name => simp [he, ht, Except.isOk, Except.toBool]
    · simp [he, Except.isOk, Except.toBool]

/-- C5 (code evaluated at the failing input): `unquote` on a word made of
one double-quoted all-literal unit `"e"` removes the quotes but reports
`false` — although the `UnquoteResult` documentation promises `Ok(true)`
whenever quotes are removed.  The double-quote case of
`Unquote for WordUnit` returns the inner text's flag instead of `true`. -/
theorem unquote_double_quote_reports_no_quotes :
    Yash.unquoteWord Yash.c5word = ("e", false) := by
  rfl

/-- C6: when `redirection` has consumed a `<<` or `<<-` operator token and
the next token is an operator, it fails with `MissingHereDocDelimiter`
located at the `<<`/`<<-` operator token itself. -/
theorem redirection_here_doc_delimiter_error_location
    (s : Yash.PState) (t0 t1 : Yash.Token) (rest : List Yash.Token)
    (op op2 : Yash.Operator)
    (hts : s.tokens = t0 :: t1 :: rest)
    (h0 : t0.id = .operator op)
    (hop : op = .lessLess ∨ op = .lessLessDash)
    (h1 : t1.id = .operator op2) :
    Yash.redirection s =
      .error { cause := .missingHereDocDelimiter, location := t0.word.location } := by
  unfold Yash.redirection Yash.peekToken Yash.takeToken
  rw [hts]
  simp only [h0, hop, if_pos, h1]

/-- C6 (witness): on the input `<< <<` the first token is `<<` at column 1
of line 1 and the second is an operator, so `redirection` fails with
`MissingHereDocDelimiter` at column 1 of line 1. -/
theorem redirection_here_doc_delimiter_error_location_witness :
    Yash.redirection (Yash.mkOldState ("<< <<")) =
      .error { cause := .missingHereDocDelimiter
               location := { lineValue := "<< <<", lineNumber := 1, column := 1 } } :=
  redirection_here_doc_delimiter_error_location (Yash.mkOldState ("<< <<"))
    (Yash.mkOldToken ("<< <<") 0 (.operator .lessLess) ['<', '<'])
    (Yash.mkOldToken ("<< <<") 3 (.operator .lessLess) ['<', '<'])
    [] .lessLess .lessLess rfl rfl (.inl rfl) rfl

/-- C10: whenever the conversion of a word into an assignment fails, the
error value is the original word, unchanged: no unit and no location is
modified on the failure path (the source only mutates the word inside the
success branch). -/
theorem assign_try_from_error_returns_word (w w' : Yash.Word)
    (h : Yash.tryFromWord w = .error w') : w' = w := by
  unfold Yash.tryFromWord at h
  repeat' split at h
  all_goals cases h
  all_goals rfl

/-- C10 (witness): the conversion fails on the word `=x` (empty name) and
the theorem applies there, the returned error word being the input
itself. -/
theorem assign_try_from_error_returns_word_witness :
    Yash.tryFromWord Yash.c10word = .error Yash.c10word ∧ Yash.c10word = Yash.c10word :=
  ⟨rfl, assign_try_from_error_returns_word Yash.c10word Yash.c10word rfl⟩

theorem Yash.dispItem_eq {H : Type} (dispH : H → String) (alternate : Bool) (i : Yash.Item H) :
    Yash.dispItem dispH alternate i =
      Yash.dispAndOrList dispH i.andOr
        ++ (if i.isAsync then "&" else if alternate then ";" else "") := by
  cases i
  rfl

theorem Yash.dispItemList_concat {H : Type} (dispH : H → String) (alternate : Bool) :
    ∀ (others : List (Yash.Item H)) (last : Yash.Item H),
      Yash.dispItemList dispH alternate (others ++ [last]) =
        Yash.dispItemsBefore dispH others ++ Yash.dispItem dispH alternate last := by
  intro others
  induction others with
  | nil =>
    intro last
    simp [Yash.dispItemList, Yash.dispItemsBefore]
  | cons i rest ih =>
    intro last
    cases rest with
    | nil =>
      simp [Yash.dispItemList, Yash.dispItemsBefore, String.append_assoc]
    | cons r rest' =>
      simp only [List.cons_append] at ih
      simp only [List.cons_append, Yash.dispItemList, Yash.dispItemsBefore, List.append_eq]
      rw [ih last]
      simp [Yash.dispItemsBefore, String.append_assoc]

/-- C9: displaying a `List` renders every item before the last followed by
its terminator (`;` for a synchronous item, `&` for an async one) and a
space; in the default form the trailing `;` of a synchronous last item is
omitted, while the alternate form terminates the last item with `;` or `&`
as well. -/
theorem display_list_item_terminators {H : Type} (dispH : H → String)
    (others : List (Yash.Item H)) (last : Yash.Item H) :
    (∀ i : Yash.Item H, Yash.dispItem dispH true i =
        Yash.dispAndOrList dispH i.andOr ++ (if i.isAsync then "&" else ";"))
    ∧ Yash.dispCList dispH false (.mk (others ++ [last])) =
        Yash.dispItemsBefore dispH others
          ++ Yash.dispAndOrList dispH last.andOr ++ (if last.isAsync then "&" else "")
    ∧ Yash.dispCList dispH true (.mk (others ++ [last])) =
        Yash.dispItemsBefore dispH others
          ++ Yash.dispAndOrList dispH last.andOr ++ (if last.isAsync then "&" else ";") := by
  refine ⟨fun i => by simpa using Yash.dispItem_eq dispH true i, ?_, ?_⟩
  · show Yash.dispItemList dispH false (others ++ [last]) = _
    rw [Yash.dispItemList_concat dispH false others last, Yash.dispItem_eq,
      String.append_assoc]
    simp
  · show Yash.dispItemList dispH true (others ++ [last]) = _
    rw [Yash.dispItemList_concat dispH true others last, Yash.dispItem_eq,
      String.append_assoc]
    simp

/-- C7: `maybe_compound_list` parses newline-separated lists until a token
that cannot begin an and-or list; on `echo; ls\n &` that token is the `&` at
byte offset 10, which is not a clause delimiter, so the result is an
`InvalidCommandToken` error at byte range 10..11; on `echo; ls\n done` the
stopping token `done` is a clause delimiter and the two items parsed so far
are returned. -/
theorem maybe_compound_list_behavior :
    YashSyntax.maybeCompoundList 50 (YashSyntax.mkState ("echo; ls\n &")) =
      .error { cause := .synErr .invalidCommandToken
               location := { start := 10, stop := 11 } }
    ∧ YashSyntax.okItemsLen
        (YashSyntax.maybeCompoundList 50 (YashSyntax.mkState ("echo; ls\n done"))) = some 2 :=
  ⟨rfl, rfl⟩

/-- C8: parsing `until :` (no `do` clause, end of input after the
condition) fails with `UnclosedUntilClause` whose opening location is the
byte range 0..5 of the `until` word, reported at the end of the input
(byte range 7..7). -/
theorem until_loop_unclosed_error :
    YashSyntax.untilLoop 50 (YashSyntax.mkState ("until :")) =
      .error { cause := .synErr (.unclosedUntilClause { start := 0, stop := 5 })
               location := { start := 7, stop := 7 } } :=
  rfl

theorem YashSyntax.Evol.rfl (s : YashSyntax.PState) : YashSyntax.Evol s s :=
  ⟨fun _ h => h, fun _ hi => .inl hi⟩

theorem YashSyntax.Evol.trans {a b c : YashSyntax.PState}
    (h1 : YashSyntax.Evol a b) (h2 : YashSyntax.Evol b c) : YashSyntax.Evol a c := by
  constructor
  · intro i hi
    exact h2.1 i (h1.1 i hi)
  · intro i hi
    rcases h1.2 i hi with h | h
    · exact h2.2 i h
    · exact .inr (h2.1 i h)

theorem YashSyntax.Evol.of_same {s s' : YashSyntax.PState}
    (hst : s'.store = s.store) (hp : s'.pending = s.pending) : YashSyntax.Evol s s' := by
  constructor
  · intro i hi
    unfold YashSyntax.filledB at *
    rw [hst]
    exact hi
  · intro i hi
    rw [hp]
    exact .inl hi

theorem YashSyntax.Covered.mono {s s' : YashSyntax.PState} {ids : List Nat}
    (he : YashSyntax.Evol s s') (hc : YashSyntax.Covered s ids) : YashSyntax.Covered s' ids := by
  intro i hi
  rcases hc i hi with h | h
  · exact he.2 i h
  · exact .inr (he.1 i h)

theorem YashSyntax.Covered.nil {s : YashSyntax.PState} : YashSyntax.Covered s [] := by
  intro i hi
  cases hi

theorem YashSyntax.Covered.append_iff {s : YashSyntax.PState} {a b : List Nat} :
    YashSyntax.Covered s (a ++ b) ↔ YashSyntax.Covered s a ∧ YashSyntax.Covered s b := by
  constructor
  · intro h
    exact ⟨fun i hi => h i (List.mem_append_left _ hi),
           fun i hi => h i (List.mem_append_right _ hi)⟩
  · intro h i hi
    rcases List.mem_append.mp hi with hm | hm
    · exact h.1 i hm
    · exact h.2 i hm

theorem YashSyntax.storeFilled_append {st extra : List YashSyntax.HDSlot} {i : Nat}
    (h : YashSyntax.storeFilled st i = true) :
    YashSyntax.storeFilled (st ++ extra) i = true := by
  unfold YashSyntax.storeFilled at *
  cases hg : st[i]? with
  | none => rw [hg] at h; cases h
  | some slot =>
    rw [hg] at h
    have hlt : i < st.length := (List.getElem?_eq_some.mp hg).1
    rw [List.getElem?_append_left hlt, hg]
    exact h

theorem YashSyntax.storeFilled_set_of_filled {st : List YashSyntax.HDSlot} {j : Nat}
    {slot' : YashSyntax.HDSlot} (hs : slot'.content.isSome = true) {i : Nat}
    (h : YashSyntax.storeFilled st i = true) :
    YashSyntax.storeFilled (st.set j slot') i = true := by
  unfold YashSyntax.storeFilled at *
  by_cases hij : j = i
  · subst hij
    cases hg : st[j]? with
    | none => rw [hg] at h; cases h
    | some slot =>
      have hlt : j < st.length := (List.getElem?_eq_some.mp hg).1
      simp [List.getElem?_set_self, hlt, hs]
  · rw [List.getElem?_set_ne hij]
    exact h

theorem YashSyntax.storeFilled_set_self {st : List YashSyntax.HDSlot} {j : Nat}
    {slot' : YashSyntax.HDSlot} (hlt : j < st.length) (hs : slot'.content.isSome = true) :
    YashSyntax.storeFilled (st.set j slot') j = true := by
  unfold YashSyntax.storeFilled
  simp [List.getElem?_set_self, hlt, hs]

theorem YashSyntax.redirsHD_append (a b : List YashSyntax.Redir) :
    YashSyntax.redirsHD (a ++ b) = YashSyntax.redirsHD a ++ YashSyntax.redirsHD b := by
  simp [YashSyntax.redirsHD]

theorem YashSyntax.itemsHD_append (a b : List YashSyntax.Item) :
    YashSyntax.itemsHD (a ++ b) = YashSyntax.itemsHD a ++ YashSyntax.itemsHD b := by
  induction a with
  | nil => simp [YashSyntax.itemsHD]
  | cons x xs ih => simp [YashSyntax.itemsHD, ih]

theorem YashSyntax.cmdsHD_append (a b : List YashSyntax.Command) :
    YashSyntax.cmdsHD (a ++ b) = YashSyntax.cmdsHD a ++ YashSyntax.cmdsHD b := by
  induction a with
  | nil => simp [YashSyntax.cmdsHD]
  | cons x xs ih => simp [YashSyntax.cmdsHD, ih]

theorem YashSyntax.aoRestHD_append (a b : List (YashSyntax.AndOr × YashSyntax.Pipeline)) :
    YashSyntax.aoRestHD (a ++ b) = YashSyntax.aoRestHD a ++ YashSyntax.aoRestHD b := by
  induction a with
  | nil => simp [YashSyntax.aoRestHD]
  | cons x xs ih =>
    cases x
    simp [YashSyntax.aoRestHD, ih]

theorem YashSyntax.takeTokenRaw_evol (s : YashSyntax.PState) :
    YashSyntax.Evol s (YashSyntax.takeTokenRaw s).2 :=
  YashSyntax.Evol.of_same rfl rfl

theorem YashSyntax.ensure_ok {s : YashSyntax.PState}
    (h : YashSyntax.ensureNoUnreadHereDoc s = .ok ()) : s.pending = [] := by
  cases hp : s.pending with
  | nil => rfl
  | cons i rest =>
    exfalso
    unfold YashSyntax.ensureNoUnreadHereDoc at h
    rw [hp] at h
    split at h
    · simp_all
    · split at h <;> cases h

theorem YashSyntax.redirection_spec {s : YashSyntax.PState} {r : YashSyntax.Redir}
    {s' : YashSyntax.PState} (h : YashSyntax.redirection s = .ok (r, s')) :
    YashSyntax.Evol s s' ∧ YashSyntax.Covered s' (YashSyntax.redirHD r) := by
  unfold YashSyntax.redirection at h
  simp only [] at h
  repeat' split at h
  all_goals cases h
  · -- here-document branch: a new pending slot is appended
    refine ⟨⟨?_, ?_⟩, ?_⟩
    · intro i hi
      exact YashSyntax.storeFilled_append hi
    · intro i hi
      exact .inl (List.mem_append_left _ hi)
    · intro i hi
      simp only [YashSyntax.redirHD, List.mem_singleton] at hi
      subst hi
      exact .inl (List.mem_append_right _ (List.mem_singleton.mpr rfl))
  · -- normal redirection: no here-document
    refine ⟨YashSyntax.Evol.of_same rfl rfl, ?_⟩
    intro i hi
    simp [YashSyntax.redirHD] at hi

theorem YashSyntax.specs_zero : YashSyntax.Specs 0 := by
  constructor
  all_goals intros
  all_goals rename_i h
  all_goals cases h


theorem YashSyntax.storeFilled_set_some {st : List YashSyntax.HDSlot} {j : Nat}
    {d : YashSyntax.Word} {rt : Bool} {t : YashSyntax.Text} {i : Nat}
    (h : YashSyntax.storeFilled st i = true) :
    YashSyntax.storeFilled (st.set j ⟨d, rt, some t⟩) i = true := by
  have hs : (⟨d, rt, some t⟩ : YashSyntax.HDSlot).content.isSome = true := rfl
  exact YashSyntax.storeFilled_set_of_filled hs h

theorem YashSyntax.storeFilled_set_self_some {st : List YashSyntax.HDSlot} {j : Nat}
    {d : YashSyntax.Word} {rt : Bool} {t : YashSyntax.Text} (hlt : j < st.length) :
    YashSyntax.storeFilled (st.set j ⟨d, rt, some t⟩) j = true := by
  have hs : (⟨d, rt, some t⟩ : YashSyntax.HDSlot).content.isSome = true := rfl
  exact YashSyntax.storeFilled_set_self hlt hs

theorem YashSyntax.readHD_succ (n : Nat) (ih : YashSyntax.Specs n) :
    ∀ delim rt acc dloc s t s',
      YashSyntax.readHDGo (n + 1) delim rt acc dloc s = .ok (t, s') →
      s'.store = s.store ∧ s'.pending = s.pending := by
  intro delim rt acc dloc s t s' h
  simp only [YashSyntax.readHDGo] at h
  repeat' split at h
  all_goals try (have hr := ih.readHD _ _ _ _ _ _ _ h; exact hr)
  all_goals cases h
  all_goals exact ⟨rfl, rfl⟩

theorem YashSyntax.hdc_succ (n : Nat) (ih : YashSyntax.Specs n) :
    ∀ s u s', YashSyntax.hereDocContents (n + 1) s = .ok (u, s') → YashSyntax.Evol s s' := by
  intro s u s' h
  simp only [YashSyntax.hereDocContents] at h
  split at h
  · rename_i hp
    cases h
    exact YashSyntax.Evol.rfl s
  · rename_i i rest hp
    split at h
    · cases h
    · rename_i slot hg
      split at h
      · cases h
      · rename_i text s1 hr
        have hread := ih.readHD _ _ _ _ _ _ _ hr
        have hrec := ih.hdc _ _ _ h
        have hstore : s1.store = s.store := hread.1
        have hpend : s1.pending = rest := hread.2
        have hlt : i < s.store.length := (List.getElem?_eq_some.mp hg).1
        constructor
        · intro j hj
          refine hrec.1 j ?_
          show YashSyntax.storeFilled (s1.store.set i _) j = true
          rw [hstore]
          exact YashSyntax.storeFilled_set_some hj
        · intro j hj
          rw [hp] at hj
          rcases List.mem_cons.mp hj with hji | hjr
          · subst hji
            refine .inr (hrec.1 j ?_)
            show YashSyntax.storeFilled (s1.store.set j _) j = true
            rw [hstore]
            exact YashSyntax.storeFilled_set_self_some hlt
          · refine hrec.2 j ?_
            show j ∈ s1.pending
            rw [hpend]
            exact hjr

theorem YashSyntax.nlhdc_succ (n : Nat) (ih : YashSyntax.Specs n) :
    ∀ s b s', YashSyntax.newlineAndHereDocContents (n + 1) s = .ok (b, s') →
      YashSyntax.Evol s s' := by
  intro s b s' h
  simp only [YashSyntax.newlineAndHereDocContents] at h
  split at h
  · split at h
    · cases h
    · rename_i u1 s1 hc
      cases h
      exact YashSyntax.Evol.trans (YashSyntax.takeTokenRaw_evol s) (ih.hdc _ _ _ hc)
  · cases h
    exact YashSyntax.Evol.rfl s

theorem YashSyntax.skipNl_succ (n : Nat) (ih : YashSyntax.Specs n) :
    ∀ s u s', YashSyntax.skipNewlines (n + 1) s = .ok (u, s') → YashSyntax.Evol s s' := by
  intro s u s' h
  simp only [YashSyntax.skipNewlines] at h
  split at h
  · cases h
  · rename_i s1 hn
    cases h
    exact ih.nlhdc _ _ _ hn
  · rename_i s1 hn
    exact YashSyntax.Evol.trans (ih.nlhdc _ _ _ hn) (ih.skipNl _ _ _ h)

theorem YashSyntax.scLp_succ (n : Nat) (ih : YashSyntax.Specs n) :
    ∀ ws rs s c s', YashSyntax.scLoop (n + 1) ws rs s = .ok (c, s') →
      YashSyntax.Evol s s' ∧
        (YashSyntax.Covered s (YashSyntax.redirsHD rs) →
          YashSyntax.Covered s' (YashSyntax.simpleHD c)) := by
  intro ws rs s c s' h
  simp only [YashSyntax.scLoop] at h
  split at h
  · have hr := ih.scLp _ _ _ _ _ h
    refine ⟨YashSyntax.Evol.trans (YashSyntax.takeTokenRaw_evol s) hr.1, ?_⟩
    intro hc
    exact hr.2 (YashSyntax.Covered.mono (YashSyntax.takeTokenRaw_evol s) hc)
  · split at h
    · split at h
      · cases h
      · rename_i r s1 hred
        have hrs := YashSyntax.redirection_spec hred
        have hrec := ih.scLp _ _ _ _ _ h
        refine ⟨YashSyntax.Evol.trans hrs.1 hrec.1, ?_⟩
        intro hc
        refine hrec.2 ?_
        rw [YashSyntax.redirsHD_append]
        refine YashSyntax.Covered.append_iff.mpr
          ⟨YashSyntax.Covered.mono hrs.1 hc, ?_⟩
        simpa [YashSyntax.redirsHD] using hrs.2
    · cases h
      exact ⟨YashSyntax.Evol.rfl s, fun hc => hc⟩
  · cases h
    exact ⟨YashSyntax.Evol.rfl s, fun hc => hc⟩

theorem YashSyntax.redLp_succ (n : Nat) (ih : YashSyntax.Specs n) :
    ∀ rs s rs2 s', YashSyntax.redirsLoop (n + 1) rs s = .ok (rs2, s') →
      YashSyntax.Evol s s' ∧
        (YashSyntax.Covered s (YashSyntax.redirsHD rs) →
          YashSyntax.Covered s' (YashSyntax.redirsHD rs2)) := by
  intro rs s rs2 s' h
  simp only [YashSyntax.redirsLoop] at h
  split at h
  · split at h
    · split at h
      · cases h
      · rename_i r s1 hred
        have hrs := YashSyntax.redirection_spec hred
        have hrec := ih.redLp _ _ _ _ h
        refine ⟨YashSyntax.Evol.trans hrs.1 hrec.1, ?_⟩
        intro hc
        refine hrec.2 ?_
        rw [YashSyntax.redirsHD_append]
        refine YashSyntax.Covered.append_iff.mpr
          ⟨YashSyntax.Covered.mono hrs.1 hc, ?_⟩
        simpa [YashSyntax.redirsHD] using hrs.2
    · cases h
      exact ⟨YashSyntax.Evol.rfl s, fun hc => hc⟩
  · cases h
    exact ⟨YashSyntax.Evol.rfl s, fun hc => hc⟩

theorem YashSyntax.cmd_succ (n : Nat) (ih : YashSyntax.Specs n) :
    ∀ s oc s', YashSyntax.command (n + 1) s = .ok (oc, s') →
      YashSyntax.Evol s s' ∧ YashSyntax.Covered s' (YashSyntax.ocHD oc) := by
  intro s oc s' h
  simp only [YashSyntax.command] at h
  split at h
  · -- word token: simple command
    split at h
    · cases h
    · rename_i c s1 hsc
      cases h
      have hr := ih.scLp _ _ _ _ _ hsc
      exact ⟨hr.1, hr.2 YashSyntax.Covered.nil⟩
  · -- while keyword
    split at h
    · cases h
    · rename_i cc s1 hwl
      split at h
      · cases h
      · rename_i rs s2 hrl
        cases h
        have h1 := ih.whl _ _ _ hwl
        have h2 := ih.redLp _ _ _ _ hrl
        refine ⟨YashSyntax.Evol.trans h1.1 h2.1, ?_⟩
        show YashSyntax.Covered _ (YashSyntax.ccHD cc ++ YashSyntax.redirsHD rs)
        exact YashSyntax.Covered.append_iff.mpr
          ⟨YashSyntax.Covered.mono h2.1 h1.2, h2.2 YashSyntax.Covered.nil⟩
  · -- until keyword
    split at h
    · cases h
    · rename_i cc s1 hul
      split at h
      · cases h
      · rename_i rs s2 hrl
        cases h
        have h1 := ih.unt _ _ _ hul
        have h2 := ih.redLp _ _ _ _ hrl
        refine ⟨YashSyntax.Evol.trans h1.1 h2.1, ?_⟩
        show YashSyntax.Covered _ (YashSyntax.ccHD cc ++ YashSyntax.redirsHD rs)
        exact YashSyntax.Covered.append_iff.mpr
          ⟨YashSyntax.Covered.mono h2.1 h1.2, h2.2 YashSyntax.Covered.nil⟩
  · -- other keyword: no command
    cases h
    exact ⟨YashSyntax.Evol.rfl s, YashSyntax.Covered.nil⟩
  · -- operator
    split at h
    · split at h
      · cases h
      · rename_i c s1 hsc
        cases h
        have hr := ih.scLp _ _ _ _ _ hsc
        exact ⟨hr.1, hr.2 YashSyntax.Covered.nil⟩
    · cases h
      exact ⟨YashSyntax.Evol.rfl s, YashSyntax.Covered.nil⟩
  · -- end of input
    cases h
    exact ⟨YashSyntax.Evol.rfl s, YashSyntax.Covered.nil⟩

theorem YashSyntax.pipeRest_succ (n : Nat) (ih : YashSyntax.Specs n) :
    ∀ cs s cs2 s', YashSyntax.pipelineRest (n + 1) cs s = .ok (cs2, s') →
      YashSyntax.Evol s s' ∧
        (YashSyntax.Covered s (YashSyntax.cmdsHD cs) →
          YashSyntax.Covered s' (YashSyntax.cmdsHD cs2)) := by
  intro cs s cs2 s' h
  simp only [YashSyntax.pipelineRest] at h
  split at h
  · split at h
    · cases h
    · rename_i u s2 hskip
      split at h
      · cases h
      · cases h
      · rename_i c s3 hcmd
        have hsk := ih.skipNl _ _ _ hskip
        have hc := ih.cmd _ _ _ hcmd
        have hrec := ih.pipeRest _ _ _ _ h
        have e0 : YashSyntax.Evol s s3 :=
          YashSyntax.Evol.trans (YashSyntax.takeTokenRaw_evol s)
            (YashSyntax.Evol.trans hsk hc.1)
        refine ⟨YashSyntax.Evol.trans e0 hrec.1, ?_⟩
        intro hcov
        refine hrec.2 ?_
        rw [YashSyntax.cmdsHD_append]
        refine YashSyntax.Covered.append_iff.mpr ⟨YashSyntax.Covered.mono e0 hcov, ?_⟩
        simpa [YashSyntax.cmdsHD] using hc.2
  · cases h
    exact ⟨YashSyntax.Evol.rfl s, fun hc => hc⟩

theorem YashSyntax.pipe_succ (n : Nat) (ih : YashSyntax.Specs n) :
    ∀ s op s', YashSyntax.pipelineFn (n + 1) s = .ok (op, s') →
      YashSyntax.Evol s s' ∧ YashSyntax.Covered s' (YashSyntax.opipeHD op) := by
  intro s op s' h
  simp only [YashSyntax.pipelineFn] at h
  split at h
  · cases h
  · rename_i s1 hcmd
    cases h
    exact ⟨(ih.cmd _ _ _ hcmd).1, YashSyntax.Covered.nil⟩
  · rename_i c s1 hcmd
    split at h
    · cases h
    · rename_i cs2 s2 hpr
      cases h
      have hc := ih.cmd _ _ _ hcmd
      have hr := ih.pipeRest _ _ _ _ hpr
      refine ⟨YashSyntax.Evol.trans hc.1 hr.1, ?_⟩
      show YashSyntax.Covered _ (YashSyntax.cmdsHD cs2)
      refine hr.2 ?_
      simpa [YashSyntax.cmdsHD] using hc.2

theorem YashSyntax.aolR_succ (n : Nat) (ih : YashSyntax.Specs n) :
    ∀ p acc s a s', YashSyntax.aolRest (n + 1) p acc s = .ok (a, s') →
      YashSyntax.Evol s s' ∧
        (YashSyntax.Covered s (YashSyntax.pipeHD p ++ YashSyntax.aoRestHD acc) →
          YashSyntax.Covered s' (YashSyntax.aolHD a)) := by
  intro p acc s a s' h
  simp only [YashSyntax.aolRest] at h
  split at h
  · cases h
    exact ⟨YashSyntax.Evol.rfl s, fun hc => hc⟩
  · rename_i c hao
    split at h
    · cases h
    · rename_i u s2 hskip
      split at h
      · cases h
      · cases h
      · rename_i p2 s3 hpipe
        have hsk := ih.skipNl _ _ _ hskip
        have hp := ih.pipe _ _ _ hpipe
        have hrec := ih.aolR _ _ _ _ _ h
        have e0 : YashSyntax.Evol s s3 :=
          YashSyntax.Evol.trans (YashSyntax.takeTokenRaw_evol s)
            (YashSyntax.Evol.trans hsk hp.1)
        refine ⟨YashSyntax.Evol.trans e0 hrec.1, ?_⟩
        intro hcov
        refine hrec.2 ?_
        rw [YashSyntax.aoRestHD_append, ← List.append_assoc]
        refine YashSyntax.Covered.append_iff.mpr ⟨YashSyntax.Covered.mono e0 hcov, ?_⟩
        simpa [YashSyntax.aoRestHD] using hp.2

theorem YashSyntax.aol_succ (n : Nat) (ih : YashSyntax.Specs n) :
    ∀ s oa s', YashSyntax.andOrList (n + 1) s = .ok (oa, s') →
      YashSyntax.Evol s s' ∧ YashSyntax.Covered s' (YashSyntax.oaolHD oa) := by
  intro s oa s' h
  simp only [YashSyntax.andOrList] at h
  split at h
  · cases h
  · rename_i s1 hpipe
    cases h
    exact ⟨(ih.pipe _ _ _ hpipe).1, YashSyntax.Covered.nil⟩
  · rename_i p s1 hpipe
    split at h
    · cases h
    · rename_i a2 s2 har
      cases h
      have hp := ih.pipe _ _ _ hpipe
      have hr := ih.aolR _ _ _ _ _ har
      refine ⟨YashSyntax.Evol.trans hp.1 hr.1, ?_⟩
      show YashSyntax.Covered _ (YashSyntax.aolHD a2)
      refine hr.2 ?_
      simpa [YashSyntax.opipeHD, YashSyntax.aoRestHD] using hp.2

theorem YashSyntax.clistHD_items (l : YashSyntax.CList) :
    YashSyntax.clistHD l = YashSyntax.itemsHD l.items := by
  cases l
  rfl

theorem YashSyntax.lstLp_succ (n : Nat) (ih : YashSyntax.Specs n) :
    ∀ a items s l s', YashSyntax.listLoop (n + 1) a items s = .ok (l, s') →
      YashSyntax.Evol s s' ∧
        (YashSyntax.Covered s (YashSyntax.aolHD a ++ YashSyntax.itemsHD items) →
          YashSyntax.Covered s' (YashSyntax.clistHD l)) := by
  intro a items s l s' h
  simp only [YashSyntax.listLoop] at h
  split at h
  · -- separator follows: `;` or `&`
    split at h
    · cases h
    · -- and_or_list returned none: stop with the items collected so far
      rename_i s2 hao
      have e0 : YashSyntax.Evol s s2 :=
        YashSyntax.Evol.trans (YashSyntax.takeTokenRaw_evol s) (ih.aol _ _ _ hao).1
      cases h
      refine ⟨e0, ?_⟩
      intro hc
      have hc2 := YashSyntax.Covered.mono e0 hc
      rw [YashSyntax.clistHD_items]
      show YashSyntax.Covered _ (YashSyntax.itemsHD (items ++ [YashSyntax.Item.mk a _]))
      rw [YashSyntax.itemsHD_append]
      have hparts := YashSyntax.Covered.append_iff.mp hc2
      refine YashSyntax.Covered.append_iff.mpr ⟨hparts.2, ?_⟩
      simpa [YashSyntax.itemsHD, YashSyntax.itemHD] using hparts.1
    · -- another and-or list: loop
      rename_i a2 s2 hao
      have hao2 := ih.aol _ _ _ hao
      have hrec := ih.lstLp _ _ _ _ _ h
      have e0 : YashSyntax.Evol s s2 :=
        YashSyntax.Evol.trans (YashSyntax.takeTokenRaw_evol s) hao2.1
      refine ⟨YashSyntax.Evol.trans e0 hrec.1, ?_⟩
      intro hc
      have hc2 := YashSyntax.Covered.mono e0 hc
      have hparts := YashSyntax.Covered.append_iff.mp hc2
      refine hrec.2 ?_
      refine YashSyntax.Covered.append_iff.mpr ⟨?_, ?_⟩
      · simpa using hao2.2
      · rw [YashSyntax.itemsHD_append]
        refine YashSyntax.Covered.append_iff.mpr ⟨hparts.2, ?_⟩
        simpa [YashSyntax.itemsHD, YashSyntax.itemHD] using hparts.1
  · -- no separator: stop
    cases h
    refine ⟨YashSyntax.Evol.rfl s, ?_⟩
    intro hc
    have hparts := YashSyntax.Covered.append_iff.mp hc
    rw [YashSyntax.clistHD_items]
    show YashSyntax.Covered s (YashSyntax.itemsHD (items ++ [YashSyntax.Item.mk a _]))
    rw [YashSyntax.itemsHD_append]
    refine YashSyntax.Covered.append_iff.mpr ⟨hparts.2, ?_⟩
    simpa [YashSyntax.itemsHD, YashSyntax.itemHD] using hparts.1

theorem YashSyntax.lst_succ (n : Nat) (ih : YashSyntax.Specs n) :
    ∀ s l s', YashSyntax.listFn (n + 1) s = .ok (l, s') →
      YashSyntax.Evol s s' ∧ YashSyntax.Covered s' (YashSyntax.clistHD l) := by
  intro s l s' h
  simp only [YashSyntax.listFn] at h
  split at h
  · cases h
  · rename_i s1 hao
    cases h
    exact ⟨(ih.aol _ _ _ hao).1, by intro i hi; simp [YashSyntax.clistHD, YashSyntax.itemsHD] at hi⟩
  · rename_i a s1 hao
    have hao2 := ih.aol _ _ _ hao
    have hrec := ih.lstLp _ _ _ _ _ h
    refine ⟨YashSyntax.Evol.trans hao2.1 hrec.1, ?_⟩
    refine hrec.2 ?_
    refine YashSyntax.Covered.append_iff.mpr ⟨?_, ?_⟩
    · simpa using hao2.2
    · intro i hi
      simp [YashSyntax.itemsHD] at hi

theorem YashSyntax.mclLp_succ (n : Nat) (ih : YashSyntax.Specs n) :
    ∀ items s items2 s', YashSyntax.mclLoop (n + 1) items s = .ok (items2, s') →
      YashSyntax.Evol s s' ∧
        (YashSyntax.Covered s (YashSyntax.itemsHD items) →
          YashSyntax.Covered s' (YashSyntax.itemsHD items2)) := by
  intro items s items2 s' h
  simp only [YashSyntax.mclLoop] at h
  split at h
  · cases h
  · rename_i l s1 hl
    split at h
    · cases h
    · rename_i s2 hn
      cases h
      have hl2 := ih.lst _ _ _ hl
      have hn2 := ih.nlhdc _ _ _ hn
      refine ⟨YashSyntax.Evol.trans hl2.1 hn2, ?_⟩
      intro hc
      rw [YashSyntax.itemsHD_append]
      refine YashSyntax.Covered.append_iff.mpr ⟨?_, ?_⟩
      · exact YashSyntax.Covered.mono (YashSyntax.Evol.trans hl2.1 hn2) hc
      · refine YashSyntax.Covered.mono hn2 ?_
        rw [← YashSyntax.clistHD_items]
        exact hl2.2
    · rename_i s2 hn
      have hl2 := ih.lst _ _ _ hl
      have hn2 := ih.nlhdc _ _ _ hn
      have hrec := ih.mclLp _ _ _ _ h
      refine ⟨YashSyntax.Evol.trans hl2.1 (YashSyntax.Evol.trans hn2 hrec.1), ?_⟩
      intro hc
      refine hrec.2 ?_
      rw [YashSyntax.itemsHD_append]
      refine YashSyntax.Covered.append_iff.mpr ⟨?_, ?_⟩
      · exact YashSyntax.Covered.mono (YashSyntax.Evol.trans hl2.1 hn2) hc
      · refine YashSyntax.Covered.mono hn2 ?_
        rw [← YashSyntax.clistHD_items]
        exact hl2.2

theorem YashSyntax.mcl_succ (n : Nat) (ih : YashSyntax.Specs n) :
    ∀ s l s', YashSyntax.maybeCompoundList (n + 1) s = .ok (l, s') →
      YashSyntax.Evol s s' ∧ YashSyntax.Covered s' (YashSyntax.clistHD l) := by
  intro s l s' h
  simp only [YashSyntax.maybeCompoundList] at h
  split at h
  · cases h
  · rename_i items s1 hm
    split at h
    · cases h
      have hm2 := ih.mclLp _ _ _ _ hm
      refine ⟨hm2.1, ?_⟩
      rw [YashSyntax.clistHD_items]
      refine hm2.2 ?_
      intro i hi
      simp [YashSyntax.itemsHD] at hi
    · cases h

theorem YashSyntax.covered_allFilled {s : YashSyntax.PState} {l : YashSyntax.CList}
    (hcov : YashSyntax.Covered s (YashSyntax.clistHD l)) (hpend : s.pending = []) :
    YashSyntax.allFilledB s l = true := by
  rw [YashSyntax.allFilledB, List.all_eq_true]
  intro i hi
  rcases hcov i hi with hp | hf
  · rw [hpend] at hp
    cases hp
  · exact hf

theorem YashSyntax.cmdLn_succ (n : Nat) (ih : YashSyntax.Specs n) :
    ∀ s r s', YashSyntax.commandLine (n + 1) s = .ok (r, s') →
      YashSyntax.Evol s s' ∧ ∀ l, r = some l → YashSyntax.allFilledB s' l = true := by
  intro s r s' h
  simp only [YashSyntax.commandLine] at h
  split at h
  · cases h
  · rename_i l s1 hl
    split at h
    · cases h
    · -- a newline followed: here-doc contents read, then the unread check
      rename_i s2 hn
      split at h
      · cases h
      · rename_i u he
        have hl2 := ih.lst _ _ _ hl
        have hn2 := ih.nlhdc _ _ _ hn
        have hpend : s2.pending = [] := YashSyntax.ensure_ok (by cases u; exact he)
        have hcov : YashSyntax.Covered s2 (YashSyntax.clistHD l) :=
          YashSyntax.Covered.mono hn2 hl2.2
        cases h
        refine ⟨YashSyntax.Evol.trans hl2.1 hn2, ?_⟩
        intro l' hl'
        cases hl'
        exact YashSyntax.covered_allFilled hcov hpend
    · -- no newline: end of input required
      rename_i s2 hn
      split at h
      · split at h
        · cases h
          have hl2 := ih.lst _ _ _ hl
          have hn2 := ih.nlhdc _ _ _ hn
          refine ⟨YashSyntax.Evol.trans hl2.1 hn2, ?_⟩
          intro l' hl'
          cases hl'
        · split at h
          · cases h
          · rename_i u he
            have hl2 := ih.lst _ _ _ hl
            have hn2 := ih.nlhdc _ _ _ hn
            have hpend : s2.pending = [] := YashSyntax.ensure_ok (by cases u; exact he)
            have hcov : YashSyntax.Covered s2 (YashSyntax.clistHD l) :=
              YashSyntax.Covered.mono hn2 hl2.2
            cases h
            refine ⟨YashSyntax.Evol.trans hl2.1 hn2, ?_⟩
            intro l' hl'
            cases hl'
            exact YashSyntax.covered_allFilled hcov hpend
      · cases h

theorem YashSyntax.doCl_succ (n : Nat) (ih : YashSyntax.Specs n) :
    ∀ s ob s', YashSyntax.doClause (n + 1) s = .ok (ob, s') →
      YashSyntax.Evol s s' ∧ YashSyntax.Covered s' (YashSyntax.oclHD ob) := by
  intro s ob s' h
  simp only [YashSyntax.doClause] at h
  split at h
  · split at h
    · cases h
    · rename_i body s2 hm
      have hm2 := ih.mcl _ _ _ hm
      split at h
      · split at h
        · cases h
        · cases h
          refine ⟨YashSyntax.Evol.trans (YashSyntax.takeTokenRaw_evol s)
            (YashSyntax.Evol.trans hm2.1 (YashSyntax.takeTokenRaw_evol _)), ?_⟩
          show YashSyntax.Covered _ (YashSyntax.clistHD body)
          exact YashSyntax.Covered.mono (YashSyntax.takeTokenRaw_evol _) hm2.2
      · cases h
  · cases h
    exact ⟨YashSyntax.Evol.rfl s, YashSyntax.Covered.nil⟩

theorem YashSyntax.whl_succ (n : Nat) (ih : YashSyntax.Specs n) :
    ∀ s cc s', YashSyntax.whileLoop (n + 1) s = .ok (cc, s') →
      YashSyntax.Evol s s' ∧ YashSyntax.Covered s' (YashSyntax.ccHD cc) := by
  intro s cc s' h
  simp only [YashSyntax.whileLoop] at h
  split at h
  · split at h
    · cases h
    · rename_i condition s2 hm
      split at h
      · cases h
      · split at h
        · cases h
        · rename_i body s3 hd
          cases h
          have hm2 := ih.mcl _ _ _ hm
          have hd2 := ih.doCl _ _ _ hd
          refine ⟨YashSyntax.Evol.trans (YashSyntax.takeTokenRaw_evol s)
            (YashSyntax.Evol.trans hm2.1 hd2.1), ?_⟩
          show YashSyntax.Covered _ (YashSyntax.clistHD condition ++ YashSyntax.clistHD body)
          refine YashSyntax.Covered.append_iff.mpr
            ⟨YashSyntax.Covered.mono hd2.1 hm2.2, ?_⟩
          simpa using hd2.2
        · cases h
  · cases h

theorem YashSyntax.unt_succ (n : Nat) (ih : YashSyntax.Specs n) :
    ∀ s cc s', YashSyntax.untilLoop (n + 1) s = .ok (cc, s') →
      YashSyntax.Evol s s' ∧ YashSyntax.Covered s' (YashSyntax.ccHD cc) := by
  intro s cc s' h
  simp only [YashSyntax.untilLoop] at h
  split at h
  · split at h
    · cases h
    · rename_i condition s2 hm
      split at h
      · cases h
      · split at h
        · cases h
        · rename_i body s3 hd
          cases h
          have hm2 := ih.mcl _ _ _ hm
          have hd2 := ih.doCl _ _ _ hd
          refine ⟨YashSyntax.Evol.trans (YashSyntax.takeTokenRaw_evol s)
            (YashSyntax.Evol.trans hm2.1 hd2.1), ?_⟩
          show YashSyntax.Covered _ (YashSyntax.clistHD condition ++ YashSyntax.clistHD body)
          refine YashSyntax.Covered.append_iff.mpr
            ⟨YashSyntax.Covered.mono hd2.1 hm2.2, ?_⟩
          simpa using hd2.2
        · cases h
  · cases h

theorem YashSyntax.specs : ∀ n : Nat, YashSyntax.Specs n := by
  intro n
  induction n with
  | zero => exact YashSyntax.specs_zero
  | succ n ih =>
    exact ⟨YashSyntax.readHD_succ n ih, YashSyntax.hdc_succ n ih, YashSyntax.nlhdc_succ n ih,
      YashSyntax.skipNl_succ n ih, YashSyntax.scLp_succ n ih, YashSyntax.redLp_succ n ih,
      YashSyntax.cmd_succ n ih, YashSyntax.pipeRest_succ n ih, YashSyntax.pipe_succ n ih,
      YashSyntax.aolR_succ n ih, YashSyntax.aol_succ n ih, YashSyntax.lstLp_succ n ih,
      YashSyntax.lst_succ n ih, YashSyntax.cmdLn_succ n ih, YashSyntax.mclLp_succ n ih,
      YashSyntax.mcl_succ n ih, YashSyntax.doCl_succ n ih, YashSyntax.whl_succ n ih,
      YashSyntax.unt_succ n ih⟩

/-- C1: whatever input `command_line` accepts (for any fuel and any starting
state), the returned list contains no `MissingHereDoc`: every here-document
redirection reachable from the list refers to a store slot whose content has
been read in the final state.  Inputs that end before a pending
here-document's content has been read never reach this success case —
`ensure_no_unread_here_doc` (or the content reader itself) turns them into
errors, never into a partial AST. -/
theorem command_line_no_missing_here_doc (n : Nat) (s : YashSyntax.PState)
    (l : YashSyntax.CList) (s' : YashSyntax.PState)
    (h : YashSyntax.commandLine n s = .ok (some l, s')) :
    YashSyntax.allFilledB s' l = true :=
  ((YashSyntax.specs n).cmdLn s (some l) s' h).2 l rfl

/-- C1 (witness): on the input `<<E\nx\nE\n` the parser succeeds and the
theorem applies, every here-document of the result carrying its content. -/
theorem command_line_no_missing_here_doc_witness :
    YashSyntax.allFilledB YashSyntax.c1pair.2 YashSyntax.c1pair.1 = true :=
  command_line_no_missing_here_doc 40 (YashSyntax.mkState ("<<E\nx\nE\n"))
    YashSyntax.c1pair.1 YashSyntax.c1pair.2 rfl
